import Mathlib

/-!
Verification of the research-agent core (JSON extraction, provider
orchestration, rate limiting, aggregation) against its specification.
The TypeScript sources are embedded shallowly: pure functions become Lean
functions over `List Char` / `String`, JavaScript numbers are modelled as
exact rationals, fallible asynchronous calls become `Except String`
values supplied by oracles, and `JSON.parse` is embedded as an executable
fuel-based parser for the JSON grammar.
-/

namespace ResearchAgent

/-! ## JavaScript values (results of JSON.parse) -/

/-- A JavaScript value as produced by `JSON.parse`.  Numbers are modelled as
exact rationals (JavaScript uses IEEE doubles; none of the verified
properties depend on rounding). -/
inductive JSVal where
  | null : JSVal
  | bool : Bool → JSVal
  | num : ℚ → JSVal
  | str : String → JSVal
  | arr : List JSVal → JSVal
  | obj : List (String × JSVal) → JSVal

/-- Left curly brace character (written via its code point). -/
def lbrace : Char := Char.ofNat 123

/-- Right curly brace character (written via its code point). -/
def rbrace : Char := Char.ofNat 125

/-- Backtick character (written via its code point). -/
def btick : Char := Char.ofNat 96

/-- JSON whitespace accepted by `JSON.parse` between tokens. -/
def isJsonWs (c : Char) : Bool :=
  c = ' ' || c = Char.ofNat 9 || c = Char.ofNat 10 || c = Char.ofNat 13

/-- Whitespace for JavaScript `String.prototype.trim` and the regex class
`\s` (ASCII part; the exotic Unicode space classes are irrelevant here). -/
def isJsWs (c : Char) : Bool :=
  c = ' ' || c = Char.ofNat 9 || c = Char.ofNat 10 || c = Char.ofNat 11 ||
  c = Char.ofNat 12 || c = Char.ofNat 13 || c = Char.ofNat 160 || c = Char.ofNat 65279

/-- Drop leading JSON whitespace. -/
def skipWs : List Char → List Char
  | [] => []
  | c :: cs => if isJsonWs c then skipWs cs else c :: cs

/-- Does `pat` occur as a prefix of `cs`? -/
def startsList : List Char → List Char → Bool
  | _, [] => true
  | [], _ :: _ => false
  | c :: cs, p :: ps => c = p && startsList cs ps

/-- Decimal digit test. -/
def isDigitCh (c : Char) : Bool := '0' ≤ c && c ≤ '9'

/-- Value of a decimal digit. -/
def digitVal (c : Char) : Nat := c.toNat - 48

/-- Split off the longest prefix of decimal digits. -/
def takeDigits : List Char → List Char × List Char
  | [] => ([], [])
  | c :: cs =>
    if isDigitCh c then
      let (ds, rest) := takeDigits cs
      (c :: ds, rest)
    else ([], c :: cs)

/-- Natural number denoted by a digit list (most significant first). -/
def digitsToNat (ds : List Char) : Nat :=
  ds.foldl (fun a c => a * 10 + digitVal c) 0

/-- Value of a hexadecimal digit, if any. -/
def hexVal (c : Char) : Option Nat :=
  if '0' ≤ c && c ≤ '9' then some (c.toNat - 48)
  else if 'a' ≤ c && c ≤ 'f' then some (c.toNat - 87)
  else if 'A' ≤ c && c ≤ 'F' then some (c.toNat - 55)
  else none

/-- Ten to an integer power, as a rational. -/
def pow10 (e : Int) : ℚ :=
  if 0 ≤ e then ((10 : ℚ) ^ e.toNat) else 1 / ((10 : ℚ) ^ (-e).toNat)

/-- Optional leading minus sign of a JSON number. -/
def parseSign : List Char → Bool × List Char
  | c :: r => if c = '-' then (true, r) else (false, c :: r)
  | [] => (false, [])

/-- Integer part of a JSON number: `0` or a nonzero digit followed by
digits (no leading zeros). -/
def parseIntPart : List Char → Option (Nat × List Char)
  | [] => none
  | c :: r =>
    if c = '0' then some (0, r)
    else if isDigitCh c then
      some (digitsToNat (c :: (takeDigits r).1), (takeDigits r).2)
    else none

/-- Optional fraction part `.digits` of a JSON number (value and digit
count). -/
def parseFracPart : List Char → Option (Nat × Nat × List Char)
  | c :: r2 =>
    if c = '.' then
      if (takeDigits r2).1.isEmpty then none
      else some (digitsToNat (takeDigits r2).1, ((takeDigits r2).1.length, (takeDigits r2).2))
    else some (0, (0, c :: r2))
  | [] => some (0, (0, []))

/-- Optional sign inside a JSON exponent. -/
def parseExpSign : List Char → Int × List Char
  | c :: r => if c = '-' then (-1, r) else if c = '+' then (1, r) else (1, c :: r)
  | [] => (1, [])

/-- Optional exponent part `[eE][+-]?digits` of a JSON number. -/
def parseExpPart : List Char → Option (Int × List Char)
  | c :: r3 =>
    if c = 'e' || c = 'E' then
      if (takeDigits (parseExpSign r3).2).1.isEmpty then none
      else some ((parseExpSign r3).1 * (digitsToNat (takeDigits (parseExpSign r3).2).1 : Int),
        (takeDigits (parseExpSign r3).2).2)
    else some (0, c :: r3)
  | [] => some (0, [])

/-- Parse a JSON number literal (grammar
`-?(0|[1-9][0-9]*)(\.[0-9]+)?([eE][+-]?[0-9]+)?`), returning its exact
rational value and the unconsumed input. -/
def parseNumber (cs : List Char) : Option (ℚ × List Char) :=
  match parseIntPart (parseSign cs).2 with
  | none => none
  | some (i, rest1) =>
    match parseFracPart rest1 with
    | none => none
    | some (f, k, rest2) =>
      match parseExpPart rest2 with
      | none => none
      | some (e, rest3) =>
        let mag : ℚ := ((i * 10 ^ k + f : Nat) : ℚ) / ((10 : ℚ) ^ k) * pow10 e
        some (if (parseSign cs).1 then -mag else mag, rest3)

/-- Record-field insertion with JavaScript object semantics: an existing key
keeps its position but its value is overwritten. -/
def insertField (fields : List (String × JSVal)) (k : String) (v : JSVal) :
    List (String × JSVal) :=
  match fields with
  | [] => [(k, v)]
  | (k', v') :: rest =>
    if k' = k then (k', v) :: rest else (k', v') :: insertField rest k v

/-- Collapse duplicate keys the way JavaScript object literals do
(later assignments win, first position kept). -/
def dedupFields (fields : List (String × JSVal)) : List (String × JSVal) :=
  fields.foldl (fun acc kv => insertField acc kv.1 kv.2) []

/-! ## The JSON parser (embedding of `JSON.parse`)

All recursive parsing functions take an explicit fuel argument so that they
are structurally recursive and kernel-reducible.  `jsonParse` supplies fuel
larger than any possible recursion depth for its input. -/

mutual

/-- Parse one JSON value (after skipping leading whitespace). -/
def parseValue : Nat → List Char → Option (JSVal × List Char)
  | 0, _ => none
  | fuel + 1, cs =>
    match skipWs cs with
    | [] => none
    | c :: rest =>
      if c = lbrace then
        match parseObjTail fuel rest with
        | some (fields, r) => some (JSVal.obj (dedupFields fields), r)
        | none => none
      else if c = '[' then
        match parseArrTail fuel rest with
        | some (xs, r) => some (JSVal.arr xs, r)
        | none => none
      else if c = '\"' then
        match parseStringBody fuel rest [] with
        | some (s, r) => some (JSVal.str s, r)
        | none => none
      else if c = '-' || isDigitCh c then
        match parseNumber (c :: rest) with
        | some (q, r) => some (JSVal.num q, r)
        | none => none
      else if startsList (c :: rest) ("true".data) then
        some (JSVal.bool true, (c :: rest).drop 4)
      else if startsList (c :: rest) ("false".data) then
        some (JSVal.bool false, (c :: rest).drop 5)
      else if startsList (c :: rest) ("null".data) then
        some (JSVal.null, (c :: rest).drop 4)
      else none

/-- Parse the remainder of a JSON object, after the opening brace. -/
def parseObjTail : Nat → List Char → Option (List (String × JSVal) × List Char)
  | 0, _ => none
  | fuel + 1, cs =>
    match skipWs cs with
    | [] => none
    | c :: rest =>
      if c = rbrace then some ([], rest)
      else parseMembers fuel (c :: rest)

/-- Parse one or more `"key": value` members followed by the closing brace. -/
def parseMembers : Nat → List Char → Option (List (String × JSVal) × List Char)
  | 0, _ => none
  | fuel + 1, cs =>
    match skipWs cs with
    | [] => none
    | c :: rest =>
      if c = '\"' then
        match parseStringBody fuel rest [] with
        | some (key, r1) =>
          (match skipWs r1 with
          | ':' :: r2 =>
            (match parseValue fuel r2 with
            | some (v, r3) =>
              (match skipWs r3 with
              | ',' :: r4 =>
                (match parseMembers fuel r4 with
                | some (fields, r5) => some ((key, v) :: fields, r5)
                | none => none)
              | c2 :: r4 =>
                if c2 = rbrace then some ([(key, v)], r4) else none
              | [] => none)
            | none => none)
          | _ => none)
        | none => none
      else none

/-- Parse the remainder of a JSON array, after the opening bracket. -/
def parseArrTail : Nat → List Char → Option (List JSVal × List Char)
  | 0, _ => none
  | fuel + 1, cs =>
    match skipWs cs with
    | [] => none
    | c :: rest =>
      if c = ']' then some ([], rest)
      else parseElems fuel (c :: rest)

/-- Parse one or more array elements followed by the closing bracket. -/
def parseElems : Nat → List Char → Option (List JSVal × List Char)
  | 0, _ => none
  | fuel + 1, cs =>
    match parseValue fuel cs with
    | some (v, r1) =>
      (match skipWs r1 with
      | ',' :: r2 =>
        (match parseElems fuel r2 with
        | some (xs, r3) => some (v :: xs, r3)
        | none => none)
      | ']' :: r2 => some ([v], r2)
      | _ => none)
    | none => none

/-- Parse the body of a JSON string literal (after the opening quote),
decoding escape sequences; `acc` holds decoded characters in reverse. -/
def parseStringBody : Nat → List Char → List Char → Option (String × List Char)
  | 0, _, _ => none
  | _ + 1, [], _ => none
  | fuel + 1, c :: rest, acc =>
    if c = '\"' then some (String.mk acc.reverse, rest)
    else if c = '\\' then
      match rest with
      | [] => none
      | e :: r2 =>
        if e = '\"' then parseStringBody fuel r2 ('\"' :: acc)
        else if e = '\\' then parseStringBody fuel r2 ('\\' :: acc)
        else if e = '/' then parseStringBody fuel r2 ('/' :: acc)
        else if e = 'b' then parseStringBody fuel r2 (Char.ofNat 8 :: acc)
        else if e = 'f' then parseStringBody fuel r2 (Char.ofNat 12 :: acc)
        else if e = 'n' then parseStringBody fuel r2 (Char.ofNat 10 :: acc)
        else if e = 'r' then parseStringBody fuel r2 (Char.ofNat 13 :: acc)
        else if e = 't' then parseStringBody fuel r2 (Char.ofNat 9 :: acc)
        else if e = 'u' then
          match r2 with
          | h1 :: h2 :: h3 :: h4 :: r3 =>
            (match hexVal h1, hexVal h2, hexVal h3, hexVal h4 with
            | some a, some b, some c3, some d =>
              parseStringBody fuel r3 (Char.ofNat (((a * 16 + b) * 16 + c3) * 16 + d) :: acc)
            | _, _, _, _ => none)
          | _ => none
        else none
    else if c.toNat < 32 then none
    else parseStringBody fuel rest (c :: acc)

end

/-- Embedding of `JSON.parse`: parse a complete JSON text (a single value
with only whitespace around it), or fail. -/
def jsonParseChars (cs : List Char) : Option JSVal :=
  match parseValue (3 * cs.length + 8) cs with
  | some (v, rest) => if (skipWs rest).isEmpty then some v else none
  | none => none

/-- Embedding of `JSON.parse` on strings. -/
def jsonParse (s : String) : Option JSVal :=
  jsonParseChars s.data

/-! ## JavaScript value coercions -/

/-- Is the value falsy in JavaScript (`!v` is true)? -/
def jsFalsy : JSVal → Bool
  | JSVal.null => true
  | JSVal.bool b => !b
  | JSVal.num q => q = 0
  | JSVal.str s => s = ""
  | _ => false

/-- Is the value truthy in JavaScript? -/
def jsTruthy (v : JSVal) : Bool := !jsFalsy v

/-- Decimal rendering of a rational, used for `String(number)`.  Exact for
integers and finite decimals (up to 20 digits); none of the verified claims
depend on the rendering of other numbers. -/
def ratFracDigits : Nat → Nat → Nat → String
  | 0, _, _ => ""
  | _ + 1, _, 0 => ""
  | fuel + 1, den, rem =>
    let d := rem * 10 / den
    let rem2 := rem * 10 % den
    (Nat.repr d) ++ ratFracDigits fuel den rem2

/-- Render a rational in decimal notation. -/
def ratToString (q : ℚ) : String :=
  let sign := if q < 0 then "-" else ""
  let n := q.num.natAbs
  if q.den = 1 then sign ++ Nat.repr n
  else sign ++ Nat.repr (n / q.den) ++ "." ++ ratFracDigits 20 q.den (n % q.den)

/-- Join rendered array elements with commas. -/
def joinArr (parts : List String) : String :=
  String.intercalate "," parts

mutual

/-- JavaScript `String(v)` coercion. -/
def jsToString : JSVal → String
  | JSVal.null => "null"
  | JSVal.bool b => if b then "true" else "false"
  | JSVal.num q => ratToString q
  | JSVal.str s => s
  | JSVal.obj _ => "[object Object]"
  | JSVal.arr xs => joinArr (jsToStringElems xs)

/-- Elementwise coercion for `Array.prototype.toString` (join with commas;
null elements render as the empty string). -/
def jsToStringElems : List JSVal → List String
  | [] => []
  | JSVal.null :: vs => "" :: jsToStringElems vs
  | v :: vs => jsToString v :: jsToStringElems vs

end

/-- Look up a property of a plain object (first matching key). -/
def objGet : List (String × JSVal) → String → Option JSVal
  | [], _ => none
  | (k, v) :: rest, key => if k = key then some v else objGet rest key

/-! ## Text cleanup: trim and markdown fence stripping -/

/-- Drop leading JavaScript whitespace. -/
def dropLeadWs (cs : List Char) : List Char := cs.dropWhile (fun c => isJsWs c)

/-- JavaScript `String.prototype.trim` over characters. -/
def trimChars (cs : List Char) : List Char :=
  ((dropLeadWs cs).reverse.dropWhile (fun c => isJsWs c)).reverse

/-- Does `pat` occur as a suffix of `cs`? -/
def endsList (cs pat : List Char) : Bool := startsList cs.reverse pat.reverse

/-- Drop an optional language tag (`json`, `javascript`, `js`) after the
opening fence, as the fence regex alternation does. -/
def dropTag (cs : List Char) : List Char :=
  if startsList cs ("json".data) then cs.drop 4
  else if startsList cs ("javascript".data) then cs.drop 10
  else if startsList cs ("js".data) then cs.drop 2
  else cs

/-- Strip a single wrapping markdown code fence, embedding the two fence
regexes of `extractJSON` (the captured group is trimmed afterwards, which
absorbs the `\s*` / `\n?` parts of the patterns). -/
def stripFencesChars (cs : List Char) : List Char :=
  if startsList cs ("```".data) && endsList cs ("```".data) && decide (6 ≤ cs.length) then
    trimChars (dropTag (((cs.drop 3).dropLast).dropLast).dropLast)
  else cs

/-- Cleaned input of `extractJSON`: trim, then strip a wrapping fence. -/
def cleanChars (cs : List Char) : List Char := stripFencesChars (trimChars cs)

/-! ## findJSONObject: first balanced brace region -/

/-- The bracket-depth scanner of `findJSONObject`, translated literally:
walks the text from the first `{`, tracking string-literal state and
escapes, and returns the consumed region when the depth returns to zero.
`acc` holds the consumed characters in reverse. -/
def scanBalanced : List Char → Int → Bool → Bool → List Char → Option (List Char)
  | [], _, _, _, _ => none
  | c :: cs, depth, inStr, esc, acc =>
    if esc then scanBalanced cs depth inStr false (c :: acc)
    else if c = '\\' && inStr then scanBalanced cs depth inStr true (c :: acc)
    else if c = '\"' then scanBalanced cs depth (!inStr) false (c :: acc)
    else if !inStr && c = lbrace then scanBalanced cs (depth + 1) inStr false (c :: acc)
    else if !inStr && c = rbrace then
      if depth - 1 = 0 then some (c :: acc).reverse
      else scanBalanced cs (depth - 1) inStr false (c :: acc)
    else scanBalanced cs depth inStr false (c :: acc)

/-- Suffix starting at the first opening brace, if any. -/
def dropUntilBrace : List Char → Option (List Char)
  | [] => none
  | c :: cs => if c = lbrace then some (c :: cs) else dropUntilBrace cs

/-- Embedding of `findJSONObject`. -/
def findJSONObjectChars (cs : List Char) : Option (List Char) :=
  match dropUntilBrace cs with
  | none => none
  | some suffix => scanBalanced suffix 0 false false []

/-! ## extractJSONFromText: the three prose regex heuristics -/

/-- Case-insensitive prefix test (regex `/i` flag). -/
def startsCI : List Char → List Char → Bool
  | _, [] => true
  | [], _ :: _ => false
  | c :: cs, p :: ps => c.toLower = p.toLower && startsCI cs ps

/-- Suffix immediately after the first case-insensitive occurrence of `pat`. -/
def afterCISub (pat : List Char) : List Char → Option (List Char)
  | [] => if pat.isEmpty then some [] else none
  | c :: cs =>
    if startsCI (c :: cs) pat then some ((c :: cs).drop pat.length)
    else afterCISub pat cs

/-- Longest prefix ending at the last closing brace, if any. -/
def cutAtLastRbrace (cs : List Char) : Option (List Char) :=
  let r := cs.reverse.dropWhile (fun c => !(c = rbrace))
  if r.isEmpty then none else some r.reverse

/-- The label words of the first prose pattern. -/
def p1Labels : List (List Char) :=
  ["json".data, "result".data, "response".data, "output".data, "data".data]

/-- If a label word is a case-insensitive prefix, the suffix after it. -/
def matchLabelAt (cs : List Char) : Option (List Char) :=
  match p1Labels.find? (fun l => startsCI cs l) with
  | some l => some (cs.drop l.length)
  | none => none

/-- Consume the optional `[:=]` of the first prose pattern. -/
def afterColon (c1 : List Char) : List Char :=
  match c1 with
  | c :: r => if c = ':' || c = '=' then r else c1
  | [] => c1

/-- After a label: `\s*[:=]?\s*`, then the suffix must start with an opening
brace; returns that suffix. -/
def afterLabel (cs : List Char) : Option (List Char) :=
  match (afterColon (cs.dropWhile (fun c => isJsWs c))).dropWhile (fun c => isJsWs c) with
  | c :: rest => if c = lbrace then some (c :: rest) else none
  | [] => none

/-- Scan of the first prose pattern
`(?:json|result|response|output|data)\s*[:=]?\s*(\x7b[\s\S]*\x7d)`:
at the first position where a label is followed by an opening brace with a
closing brace somewhere later, capture greedily to the last closing brace. -/
def scanP1 : List Char → Option (List Char)
  | [] => none
  | c :: cs =>
    match (matchLabelAt (c :: cs)).bind afterLabel with
    | some fromBrace =>
      (match cutAtLastRbrace fromBrace with
      | some cap => some cap
      | none => scanP1 cs)
    | none => scanP1 cs

/-- Feasibility of the second prose pattern from a position holding an
opening brace: a quoted `summary` after it, a quoted `confidence` after
that, and a closing brace after that. -/
def p2FeasFrom (cs : List Char) : Bool :=
  match afterCISub ("\"summary\"".data) (cs.drop 1) with
  | none => false
  | some afterSum =>
    match afterCISub ("\"confidence\"".data) afterSum with
    | none => false
    | some afterConf => afterConf.contains rbrace

/-- Scan of the second prose pattern
`(\x7b[\s\S]*"summary"[\s\S]*"confidence"[\s\S]*\x7d)`: suffix starting at
the first feasible opening brace. -/
def scanP2 : List Char → Option (List Char)
  | [] => none
  | c :: cs =>
    if c = lbrace && p2FeasFrom (c :: cs) then some (c :: cs) else scanP2 cs

/-- The third prose pattern `(\x7b[\s\S]*\x7d)\s*$`: the last closing brace
must be followed only by whitespace, and the capture runs from the first
opening brace to that closing brace. -/
def p3Match (cs : List Char) : Option (List Char) :=
  match cutAtLastRbrace cs with
  | none => none
  | some pre =>
    if (cs.drop pre.length).all (fun c => isJsWs c) then
      match dropUntilBrace pre with
      | some fromBrace => if 2 ≤ fromBrace.length then some fromBrace else none
      | none => none
    else none

/-- Embedding of `extractJSONFromText`: first pattern that matches wins; the
captured text always starts with an opening brace and ends with a closing
brace, so the `startsWith`/`endsWith` guard of the source always passes. -/
def extractJSONFromTextChars (cs : List Char) : Option (List Char) :=
  match scanP1 cs with
  | some cap => some cap
  | none =>
    match scanP2 cs with
    | some suffix => cutAtLastRbrace suffix
    | none => p3Match cs

/-! ## extractJSON -/

/-- The `T | null` return convention of `extractJSON`: a parsed JSON `null`
is returned as the JavaScript value `null` and is therefore
indistinguishable from extraction failure. -/
def jsRet : JSVal → Option JSVal
  | JSVal.null => none
  | v => some v

/-- Steps 3 and 4 of `extractJSON` share this fallback: try the prose
heuristics and parse the captured text. -/
def extractStep4 (cleaned : List Char) : Option JSVal :=
  match extractJSONFromTextChars cleaned with
  | some m =>
    (match jsonParseChars m with
    | some v => jsRet v
    | none => none)
  | none => none

/-- Embedding of `extractJSON` on characters (for nonempty input). -/
def extractJSONChars (cs : List Char) : Option JSVal :=
  let cleaned := cleanChars cs
  match jsonParseChars cleaned with
  | some v => jsRet v
  | none =>
    match findJSONObjectChars cleaned with
    | some m =>
      (match jsonParseChars m with
      | some v => jsRet v
      | none => extractStep4 cleaned)
    | none => extractStep4 cleaned

/-- Embedding of `extractJSON` (the guard `!text` maps the empty string to
null; inputs are always strings here). -/
def extractJSON (text : String) : Option JSVal :=
  if text = "" then none else extractJSONChars text.data


/-! ## Schema validation (zod `ResearchResultSchema`) and salvage -/

/-- The validated research payload (`ExtractedResearch`).  `details` is kept
as a raw JavaScript value because the salvage path of the source can store
non-record values in it. -/
structure ExtractedResearch where
  summary : String
  details : JSVal
  sources : Option (List String)
  confidence : ℚ

/-- `z.array(z.string())`: succeeds when every element is a string. -/
def allStrings : List JSVal → Option (List String)
  | [] => some []
  | JSVal.str s :: rest => (allStrings rest).map (fun l => s :: l)
  | _ => none

/-- Embedding of `ResearchResultSchema.safeParse`: `summary` a nonempty
string, `details` a record defaulting to `\x7b\x7d`, `sources` an optional
string array, `confidence` a number in `[0,1]` defaulting to `0.5`.
Unknown keys are stripped. -/
def validateResearch (v : JSVal) : Option ExtractedResearch :=
  match v with
  | JSVal.obj fields =>
    (match objGet fields "summary" with
    | some (JSVal.str s) =>
      if s = "" then none
      else
        (match
          (match objGet fields "details" with
          | none => some (JSVal.obj [])
          | some (JSVal.obj fs) => some (JSVal.obj fs)
          | some _ => none) with
        | some det =>
          (match
            (match objGet fields "sources" with
            | none => some none
            | some (JSVal.arr xs) => (allStrings xs).map some
            | some _ => none) with
          | some srcs =>
            (match
              (match objGet fields "confidence" with
              | none => some ((1 : ℚ) / 2)
              | some (JSVal.num q) => if 0 ≤ q && q ≤ 1 then some q else none
              | some _ => none) with
            | some conf => some ⟨s, det, srcs, conf⟩
            | none => none)
          | none => none)
        | none => none)
    | _ => none)
  | _ => none

/-- Fixed placeholder summary used by the salvage path. -/
def researchPlaceholder : String := "Research completed but output was malformed"

/-- Property access on an arbitrary JavaScript value: objects have their
fields, everything else yields `undefined`. -/
def salvageGet (v : JSVal) (key : String) : Option JSVal :=
  match v with
  | JSVal.obj fs => objGet fs key
  | _ => none

/-- The salvage branch of `extractResearchResult`, translated field by
field: `String(extracted.summary || placeholder)`, `extracted.details || \x7b\x7d`,
`Array.isArray(extracted.sources) ? extracted.sources.map(String) : undefined`,
`typeof extracted.confidence === 'number' ? extracted.confidence : 0.3`. -/
def salvageResearch (v : JSVal) : ExtractedResearch where
  summary :=
    match salvageGet v "summary" with
    | some sv => if jsTruthy sv then jsToString sv else researchPlaceholder
    | none => researchPlaceholder
  details :=
    match salvageGet v "details" with
    | some dv => if jsTruthy dv then dv else JSVal.obj []
    | none => JSVal.obj []
  sources :=
    match salvageGet v "sources" with
    | some (JSVal.arr xs) => some (xs.map jsToString)
    | _ => none
  confidence :=
    match salvageGet v "confidence" with
    | some (JSVal.num q) => q
    | _ => (3 : ℚ) / 10

/-- Embedding of `extractResearchResult`: extract JSON, discard falsy
results (`if (!extracted) return null`), validate, and otherwise salvage. -/
def extractResearchResult (text : String) : Option ExtractedResearch :=
  match extractJSON text with
  | none => none
  | some v =>
    if jsFalsy v then none
    else
      match validateResearch v with
      | some r => some r
      | none => some (salvageResearch v)

/-- Embedding of `createRepairPrompt`. -/
def createRepairPrompt (originalPrompt malformedResponse : String) : String :=
  "The previous response was not valid JSON. Here was the malformed response:\n\n"
  ++ String.mk (malformedResponse.data.take 500)
  ++ (if 500 < malformedResponse.data.length then "..." else "")
  ++ "\n\nPlease provide ONLY a valid JSON object with no additional text.\nOriginal request: "
  ++ originalPrompt
  ++ "\n\nRemember: Output ONLY the JSON object, nothing else."


/-! ## Rate limiter (`createRateLimiter` / `processWithRetry`) -/

/-- `String.prototype.includes` over characters. -/
def includesChars : List Char → List Char → Bool
  | [], pat => pat.isEmpty
  | c :: cs, pat => startsList (c :: cs) pat || includesChars cs pat

/-- `String.prototype.includes`. -/
def strIncludes (s pat : String) : Bool := includesChars s.data pat.data

/-- Rate-limit detection of `processWithRetry` (case-sensitive substring
tests, as in the source). -/
def isRateLimitError (msg : String) : Bool :=
  strIncludes msg "429" || strIncludes msg "rate limit" ||
  strIncludes msg "too many requests"

/-- Default concurrency of the rate limiter. -/
def DEFAULT_CONCURRENCY : Nat := 5

/-- Default maximum number of attempts per item. -/
def MAX_RETRIES : Nat := 3

/-- Default initial backoff in milliseconds. -/
def INITIAL_BACKOFF_MS : Nat := 1000

/-- Result of running the per-item retry loop: the settled result, the last
error, the number of processor invocations, and the backoff sleeps
performed (in order). -/
structure ItemRun (R : Type) where
  result : Option R
  lastError : Option String
  attempts : Nat
  delays : List Nat

/-- The per-item retry loop of `processWithRetry` (`for attempt in
0..maxRetries-1`), with the processor modelled as a function of the attempt
number and sleeps recorded in `delays` (`delaysRev` is reversed). -/
def runItemGo (proc : Nat → Except String R) (maxRetries initialBackoffMs : Nat) :
    Nat → Nat → Option String → List Nat → ItemRun R
  | 0, attempt, lastError, delaysRev => ⟨none, lastError, attempt, delaysRev.reverse⟩
  | fuel + 1, attempt, _, delaysRev =>
    match proc attempt with
    | Except.ok r => ⟨some r, none, attempt + 1, delaysRev.reverse⟩
    | Except.error e =>
      if isRateLimitError e && attempt < maxRetries - 1 then
        runItemGo proc maxRetries initialBackoffMs fuel (attempt + 1) (some e)
          ((initialBackoffMs * 2 ^ attempt) :: delaysRev)
      else if attempt < maxRetries - 1 then
        runItemGo proc maxRetries initialBackoffMs fuel (attempt + 1) (some e)
          (initialBackoffMs :: delaysRev)
      else
        runItemGo proc maxRetries initialBackoffMs fuel (attempt + 1) (some e) delaysRev

/-- Run the retry loop for one item. -/
def runItem (proc : Nat → Except String R) (maxRetries initialBackoffMs : Nat) : ItemRun R :=
  runItemGo proc maxRetries initialBackoffMs maxRetries 0 none []

/-- One element of the array returned by `processWithRetry`
(`\x7bitem, result, error\x7d`). -/
structure RetryOutcome (T R : Type) where
  item : T
  result : Option R
  error : Option String

/-- Map the per-item loop over the item list with its index
(`items.map((item, index) => limit(...))` under `Promise.all`, which
preserves positions). -/
def processItemsGo (proc : T → Nat → Nat → Except String R)
    (maxRetries initialBackoffMs : Nat) : Nat → List T → List (RetryOutcome T R)
  | _, [] => []
  | i, t :: ts =>
    let run := runItem (fun a => proc t i a) maxRetries initialBackoffMs
    ⟨t, run.result, run.lastError⟩ :: processItemsGo proc maxRetries initialBackoffMs (i + 1) ts

/-- Embedding of `processWithRetry`: the processor is an oracle of the item,
its index and the attempt number; the concurrency cap only affects
scheduling, not the returned array. -/
def processWithRetry (_concurrency maxRetries initialBackoffMs : Nat)
    (items : List T) (proc : T → Nat → Nat → Except String R) : List (RetryOutcome T R) :=
  processItemsGo proc maxRetries initialBackoffMs 0 items

/-- Embedding of `chunkArray` (also the inline chunking loop of
`reduceAggregate`), via a fuel argument bounding the iteration count. -/
def chunkGo (size : Nat) : Nat → List α → List (List α)
  | _, [] => []
  | 0, _ :: _ => []
  | fuel + 1, x :: xs => ((x :: xs).take size) :: chunkGo size fuel ((x :: xs).drop size)

/-- Chunk a list into slices of `size`. -/
def chunkArray (xs : List α) (size : Nat) : List (List α) := chunkGo size xs.length xs

/-! ## Aggregator (map-reduce over research results) -/

/-- Word cap of the map phase. -/
def MAX_SUMMARY_WORDS : Nat := 200

/-- Chunk size of the reduce phase. -/
def AGGREGATION_CHUNK_SIZE : Nat := 5

mutual

/-- JavaScript `text.split(/\s+/)`: collecting a token. -/
def splitWsGo : List Char → List Char → List String
  | [], acc => [String.mk acc.reverse]
  | c :: cs, acc =>
    if isJsWs c then String.mk acc.reverse :: splitWsSkip cs
    else splitWsGo cs (c :: acc)

/-- JavaScript `text.split(/\s+/)`: inside a whitespace run. -/
def splitWsSkip : List Char → List String
  | [] => [""]
  | c :: cs => if isJsWs c then splitWsSkip cs else splitWsGo cs [c]

end

/-- JavaScript `text.split(/\s+/)` (empty tokens appear exactly at a
leading or trailing whitespace run). -/
def jsSplitWs (s : String) : List String := splitWsGo s.data []

/-- JavaScript `Array.prototype.join(' ')` on strings. -/
def joinWords : List String → String
  | [] => ""
  | [w] => w
  | w :: ws => w ++ " " ++ joinWords ws

/-- Embedding of `truncateToWords`. -/
def truncateToWords (text : String) (maxWords : Nat) : String :=
  let words := jsSplitWs text
  if words.length ≤ maxWords then text
  else joinWords (words.take maxWords) ++ "..."

/-- `findings.slice(0, 3).join('; ')` (array join coerces elements,
rendering null as the empty string). -/
def joinFindings (xs : List JSVal) : String :=
  String.intercalate "; " (jsToStringElems xs)

/-- The map phase for a single result: concatenate the summary with up to
three `key_findings` when `details` is a truthy object, then truncate. -/
def mapSummarizeOne (r : ExtractedResearch) : String :=
  let s1 := r.summary
  let s2 :=
    match r.details with
    | JSVal.obj fs =>
      (match objGet fs "key_findings" with
      | some (JSVal.arr findings) =>
        if 0 < findings.length then
          s1 ++ " Key findings: " ++ joinFindings (findings.take 3)
        else s1
      | _ => s1)
    | _ => s1
  truncateToWords s2 MAX_SUMMARY_WORDS

/-- Embedding of `mapSummarize`. -/
def mapSummarize (results : List ExtractedResearch) : List String :=
  results.map mapSummarizeOne

/-- Numbered list for the aggregation prompt. -/
def numberGo : Nat → List String → List String
  | _, [] => []
  | i, s :: rest => (Nat.repr i ++ ". " ++ s) :: numberGo (i + 1) rest

/-- The aggregation prompt of `aggregateSummaries`. -/
def buildAggPrompt (summaries : List String) (originalQuery : String) : String :=
  "You are aggregating research summaries. The original query was: \"" ++ originalQuery
  ++ "\"\n\nHere are the individual research summaries:\n\n"
  ++ String.intercalate "\n\n" (numberGo 1 summaries)
  ++ "\n\nCreate a cohesive 3-5 sentence summary that:\n"
  ++ "1. Captures the key themes and patterns across all results\n"
  ++ "2. Highlights the most important findings\n"
  ++ "3. Notes any significant differences or outliers\n"
  ++ "4. Provides actionable insights\n\n"
  ++ "Keep your response concise and directly useful. Do not use bullet points, write in flowing prose."

/-- Record of one LLM aggregation call issued by the reduce phase. -/
structure AggCall where
  summaries : List String
  prompt : String

/-- Embedding of `aggregateSummaries`: issue one completion call (recorded);
on failure fall back to concatenating the first three summaries. -/
def aggregateSummaries (oracle : String → Except String String)
    (summaries : List String) (originalQuery : String) : String × List AggCall :=
  let prompt := buildAggPrompt summaries originalQuery
  match oracle prompt with
  | Except.ok s => (s, [⟨summaries, prompt⟩])
  | Except.error _ => (String.intercalate " " (summaries.take 3), [⟨summaries, prompt⟩])

/-- Embedding of `reduceAggregate`: aggregate directly for at most
`AGGREGATION_CHUNK_SIZE` summaries, otherwise aggregate each chunk and then
aggregate the chunk results once. -/
def reduceAggregate (oracle : String → Except String String)
    (summaries : List String) (originalQuery : String) : String × List AggCall :=
  if summaries.length ≤ AGGREGATION_CHUNK_SIZE then
    aggregateSummaries oracle summaries originalQuery
  else
    let chunks := chunkArray summaries AGGREGATION_CHUNK_SIZE
    let firstLevel := chunks.map (fun chunk => aggregateSummaries oracle chunk originalQuery)
    let final := aggregateSummaries oracle (firstLevel.map Prod.fst) originalQuery
    (final.fst, (firstLevel.map Prod.snd).flatten ++ final.snd)

/-! ## Provider orchestrator (`llmCompletion` / `researchCompletion`) -/

/-- Token usage counters of a provider response. -/
structure LLMUsage where
  promptTokens : Nat
  completionTokens : Nat
  totalTokens : Nat

/-- A provider response. -/
structure LLMResponse where
  content : String
  model : String
  usage : Option LLMUsage

/-- The two providers. -/
inductive LLMProvider where
  | openrouter : LLMProvider
  | gemini : LLMProvider
  deriving DecidableEq

/-- A chat message. -/
structure LLMMessage where
  role : String
  content : String

/-- Result of `llmCompletion`. -/
structure OrchestrationResult where
  response : LLMResponse
  provider : LLMProvider
  fallbackUsed : Bool

/-- Embedding of `llmCompletion`: try the primary (OpenRouter, already
combined with its 5 s timeout in the oracle), fall back to Gemini, and fail
with the combined message when both fail. -/
def llmCompletion (primary fallback : Except String LLMResponse) :
    Except String OrchestrationResult :=
  match primary with
  | Except.ok r => Except.ok ⟨r, LLMProvider.openrouter, false⟩
  | Except.error e1 =>
    match fallback with
    | Except.ok r => Except.ok ⟨r, LLMProvider.gemini, true⟩
    | Except.error e2 =>
      Except.error ("All LLM providers failed. OpenRouter: " ++ e1 ++ ", Gemini: " ++ e2)

/-- Number of repair attempts after the first orchestrated attempt. -/
def MAX_REPAIR_ATTEMPTS : Nat := 2

/-- The fixed degraded result returned when every attempt fails. -/
def degradedResearchResult : ExtractedResearch :=
  ⟨"Research could not be completed due to processing errors.", JSVal.obj [], none, (1 : ℚ) / 10⟩

/-- Result of `researchCompletion`. -/
structure ResearchOutcome where
  result : ExtractedResearch
  provider : LLMProvider
  attempts : Nat

/-- `key: value` lines of the entity data. -/
def entityInfoText (entityData : List (String × String)) : String :=
  String.intercalate "\n" (entityData.map (fun kv => kv.1 ++ ": " ++ kv.2))

/-- Embedding of `createResearchPrompt` (openrouter client). -/
def createResearchPrompt (query : String) (entityData : List (String × String)) :
    List LLMMessage :=
  [⟨"user",
    "Research the following entity based on this query: \"" ++ query
    ++ "\"\n\nEntity Information:\n" ++ entityInfoText entityData
    ++ "\n\nRespond with a JSON object in this exact format:\n\x7b\n"
    ++ "  \"summary\": \"A concise 2-3 sentence summary of the research findings\",\n"
    ++ "  \"details\": \x7b\n    \"key_findings\": [\"finding 1\", \"finding 2\"],\n"
    ++ "    \"relevant_data\": \x7b\x7d\n  \x7d,\n"
    ++ "  \"sources\": [\"source1.com\", \"source2.com\"],\n  \"confidence\": 0.85\n\x7d\n\n"
    ++ "The confidence score should be between 0 and 1 based on how reliable the information is.\n"
    ++ "Remember: Output ONLY the JSON object, nothing else."⟩]

/-- The `while (attempts < MAX_REPAIR_ATTEMPTS + 1)` loop of
`researchCompletion`: attempt 1 uses the orchestrator, later attempts send a
repair prompt to Gemini; every thrown error is caught and the loop
continues; after the last attempt the degraded fallback is returned. -/
def researchGo (query : String) (primary fallback : Except String LLMResponse)
    (repair : Nat → String → Except String String) :
    Nat → Nat → String → LLMProvider → ResearchOutcome
  | 0, attempts, _, lastProvider => ⟨degradedResearchResult, lastProvider, attempts⟩
  | fuel + 1, attempts, lastResponse, lastProvider =>
    let att := attempts + 1
    let step : Except String (String × LLMProvider) :=
      if att = 1 then
        match llmCompletion primary fallback with
        | Except.ok o => Except.ok (o.response.content, o.provider)
        | Except.error e => Except.error e
      else
        match repair att (createRepairPrompt query lastResponse) with
        | Except.ok c => Except.ok (c, LLMProvider.gemini)
        | Except.error e => Except.error e
    match step with
    | Except.ok (resp, prov) =>
      (match extractResearchResult resp with
      | some ext => ⟨ext, prov, att⟩
      | none => researchGo query primary fallback repair fuel att resp prov)
    | Except.error _ => researchGo query primary fallback repair fuel att lastResponse lastProvider

/-- Embedding of `researchCompletion`.  Every failing provider call inside
the loop is caught, so the function always resolves; the `Except` result
type records that the source function could in principle reject. -/
def researchCompletion (query : String) (entityData : List (String × String))
    (primary fallback : Except String LLMResponse)
    (repair : Nat → String → Except String String) : Except String ResearchOutcome :=
  let _messages := createResearchPrompt query entityData
  Except.ok (researchGo query primary fallback repair (MAX_REPAIR_ATTEMPTS + 1) 0 "" LLMProvider.openrouter)

/-! ## Row worker (`ResearchWorker.processRows`) -/

/-- A spreadsheet row. -/
structure SpreadsheetRow where
  id : String
  data : List (String × String)

/-- The `ResearchResult` attached to a completed row. -/
structure ResearchResult where
  summary : String
  details : JSVal
  sources : Option (List String)
  confidence : ℚ
  timestamp : Nat

/-- Progress status of a worker event. -/
inductive WStatus where
  | processing : WStatus
  | completed : WStatus
  | error : WStatus
  deriving DecidableEq

/-- A worker progress event. -/
structure WorkerProgress where
  rowId : String
  status : WStatus
  result : Option ResearchResult
  error : Option String

/-- Embedding of `toResearchResult`; `Date.now()` is passed in as `now`. -/
def toResearchResult (now : Nat) (extracted : ExtractedResearch) : ResearchResult :=
  ⟨extracted.summary, extracted.details, extracted.sources, extracted.confidence, now⟩

/-- Provider oracles for one row's research call. -/
structure RowOracles where
  primary : Except String LLMResponse
  fallback : Except String LLMResponse
  repair : Nat → String → Except String String

/-- The row processor passed to the rate limiter by `processRows`. -/
def rowResearch (query : String) (oracles : SpreadsheetRow → RowOracles)
    (row : SpreadsheetRow) : Except String (ExtractedResearch × LLMProvider) :=
  match researchCompletion query row.data (oracles row).primary (oracles row).fallback
      (oracles row).repair with
  | Except.ok o => Except.ok (o.result, o.provider)
  | Except.error e => Except.error e

/-- The progress events emitted for one row: one `processing` event per
processor invocation, then `completed` (with the converted result) or
`error` (with the last error message, defaulting to "Unknown error"). -/
def rowEvents (now : Nat) (row : SpreadsheetRow)
    (run : ItemRun (ExtractedResearch × LLMProvider)) : List WorkerProgress :=
  List.replicate run.attempts ⟨row.id, WStatus.processing, none, none⟩ ++
  [match run.result with
   | some res => ⟨row.id, WStatus.completed, some (toResearchResult now res.1), none⟩
   | none => ⟨row.id, WStatus.error, none, some (run.lastError.getD "Unknown error")⟩]

/-- Functional update of the `results` map. -/
def insertResult (m : String → Option ResearchResult) (k : String) (v : ResearchResult) :
    String → Option ResearchResult :=
  fun k2 => if k2 = k then some v else m k2

/-- Embedding of `ResearchWorker.processRows`: run each row through the
rate limiter, emit per-row events, and build the results map (successful
rows are inserted both by the progress callback and by the collection loop
after `processWithRetry` returns). -/
def processRows (now : Nat) (query : String) (oracles : SpreadsheetRow → RowOracles)
    (rows : List SpreadsheetRow) :
    List (String × List WorkerProgress) × (String → Option ResearchResult) :=
  let runs := rows.map (fun row =>
    (row, runItem (fun _ => rowResearch query oracles row) MAX_RETRIES INITIAL_BACKOFF_MS))
  let events := runs.map (fun p => (p.1.id, rowEvents now p.1 p.2))
  let m1 := runs.foldl (fun m p =>
    match p.2.result with
    | some res => insertResult m p.1.id (toResearchResult now res.1)
    | none => m) (fun _ => none)
  let m2 := runs.foldl (fun m p =>
    match p.2.result with
    | some res => insertResult m p.1.id (toResearchResult now res.1)
    | none => m) m1
  (events, m2)


/-! ## Rate limiter lemmas and claims C5, C6, C10 -/

theorem processItemsGo_length {T R : Type} (proc : T → Nat → Nat → Except String R)
    (m b : Nat) : ∀ (i : Nat) (items : List T),
    (processItemsGo proc m b i items).length = items.length := by
  intro i items
  induction items generalizing i with
  | nil => rfl
  | cons t ts ih => simp [processItemsGo, ih]

theorem processItemsGo_map_item {T R : Type} (proc : T → Nat → Nat → Except String R)
    (m b : Nat) : ∀ (i : Nat) (items : List T),
    (processItemsGo proc m b i items).map (fun o => o.item) = items := by
  intro i items
  induction items generalizing i with
  | nil => rfl
  | cons t ts ih => simp [processItemsGo, ih]

theorem runItemGo_attempts_le {R : Type} (proc : Nat → Except String R) (m b : Nat) :
    ∀ (fuel attempt : Nat) (last : Option String) (acc : List Nat),
    (runItemGo proc m b fuel attempt last acc).attempts ≤ attempt + fuel := by
  intro fuel
  induction fuel with
  | zero => intro attempt last acc; simp [runItemGo]
  | succ f ih =>
    intro attempt last acc
    simp only [runItemGo]
    cases proc attempt with
    | ok r => simp
    | error e =>
      by_cases h1 : isRateLimitError e && decide (attempt < m - 1)
      · simp only [h1, if_pos]
        have := ih (attempt + 1) (some e) ((b * 2 ^ attempt) :: acc)
        omega
      · simp only [h1, if_neg, Bool.false_eq_true, not_false_eq_true]
        by_cases h2 : attempt < m - 1
        · simp only [h2, if_pos]
          have := ih (attempt + 1) (some e) (b :: acc)
          omega
        · simp only [h2, if_neg, not_false_eq_true]
          have := ih (attempt + 1) (some e) acc
          omega

/-- C5: for every item list and every processor (including processors that
always fail), `processWithRetry` resolves with an outcome array of the same
length in which each input item appears exactly once at its own position,
and the retry loop never makes more than `maxRetries` processor invocations
per item (so the number of retries is below the configured maximum). -/
theorem C5_processWithRetry_outcomes {T R : Type}
    (concurrency maxRetries initialBackoffMs : Nat)
    (items : List T) (proc : T → Nat → Nat → Except String R) :
    (processWithRetry concurrency maxRetries initialBackoffMs items proc).length
      = items.length ∧
    (processWithRetry concurrency maxRetries initialBackoffMs items proc).map
      (fun o => o.item) = items ∧
    ∀ t i, (runItem (fun a => proc t i a) maxRetries initialBackoffMs).attempts
      ≤ maxRetries := by
  refine ⟨processItemsGo_length proc _ _ 0 items, processItemsGo_map_item proc _ _ 0 items, ?_⟩
  intro t i
  have := runItemGo_attempts_le (fun a => proc t i a) maxRetries initialBackoffMs
    maxRetries 0 none []
  simpa [runItem] using this

/-- C10: the outcome array of `processWithRetry` preserves submission order
positionally: the i-th outcome holds the i-th input item. -/
theorem C10_order_preserved {T R : Type}
    (concurrency maxRetries initialBackoffMs : Nat)
    (items : List T) (proc : T → Nat → Nat → Except String R) (i : Nat) :
    ((processWithRetry concurrency maxRetries initialBackoffMs items proc)[i]?).map
      (fun o => o.item) = items[i]? := by
  have h := processItemsGo_map_item proc maxRetries initialBackoffMs 0 items
  calc ((processWithRetry concurrency maxRetries initialBackoffMs items proc)[i]?).map
        (fun o => o.item)
      = ((processWithRetry concurrency maxRetries initialBackoffMs items proc).map
        (fun o => o.item))[i]? := by
        rw [List.getElem?_map]
    _ = items[i]? := by rw [processWithRetry] at *; rw [h]

/-- The backoff sleeps that the retry loop will perform from a given attempt
number on (helper for reasoning about `runItemGo`). -/
def delaysFrom {R : Type} (proc : Nat → Except String R) (m b : Nat) :
    Nat → Nat → List Nat
  | 0, _ => []
  | fuel + 1, attempt =>
    match proc attempt with
    | Except.ok _ => []
    | Except.error e =>
      if attempt < m - 1 then
        (if isRateLimitError e then b * 2 ^ attempt else b) :: delaysFrom proc m b fuel (attempt + 1)
      else delaysFrom proc m b fuel (attempt + 1)

theorem runItemGo_delays {R : Type} (proc : Nat → Except String R) (m b : Nat) :
    ∀ (fuel attempt : Nat) (last : Option String) (acc : List Nat),
    (runItemGo proc m b fuel attempt last acc).delays
      = acc.reverse ++ delaysFrom proc m b fuel attempt := by
  intro fuel
  induction fuel with
  | zero => intro attempt last acc; simp [runItemGo, delaysFrom]
  | succ f ih =>
    intro attempt last acc
    simp only [runItemGo, delaysFrom]
    cases proc attempt with
    | ok r => simp
    | error e =>
      by_cases hrl : isRateLimitError e
      · by_cases h1 : attempt < m - 1
        · simp [hrl, h1, ih]
        · simp [hrl, h1, ih]
      · by_cases h1 : attempt < m - 1
        · simp [hrl, h1, ih]
        · simp [hrl, h1, ih]

theorem delaysFrom_get {R : Type} (proc : Nat → Except String R) (m b : Nat) :
    ∀ (fuel attempt j : Nat) (d : Nat),
    (delaysFrom proc m b fuel attempt)[j]? = some d →
    ∃ e, proc (attempt + j) = Except.error e ∧
      d = if isRateLimitError e then b * 2 ^ (attempt + j) else b := by
  intro fuel
  induction fuel with
  | zero => intro attempt j d hj; simp [delaysFrom] at hj
  | succ f ih =>
    intro attempt j d hj
    simp only [delaysFrom] at hj
    cases hp : proc attempt with
    | ok r => simp [hp] at hj
    | error e =>
      simp only [hp] at hj
      by_cases h1 : attempt < m - 1
      · rw [if_pos h1] at hj
        cases j with
        | zero =>
          refine ⟨e, by simpa using hp, ?_⟩
          simpa using hj.symm
        | succ k =>
          have hk := ih (attempt + 1) k d (by simpa using hj)
          obtain ⟨e2, he2, hval⟩ := hk
          refine ⟨e2, ?_, ?_⟩
          · rw [show attempt + (k + 1) = attempt + 1 + k by omega]; exact he2
          · rw [hval, show attempt + 1 + k = attempt + (k + 1) by omega]
      · rw [if_neg h1] at hj
        -- once the final attempt index is reached, every later attempt also
        -- records no delay, so this branch yields an element only from the
        -- recursive call, whose attempt indices are shifted by one; but the
        -- shifted statement differs from the goal, so show the list is nil.
        exfalso
        have hnil : ∀ (fu at2 : Nat), ¬ (at2 < m - 1) → delaysFrom proc m b fu at2 = [] := by
          intro fu
          induction fu with
          | zero => intro at2 _; rfl
          | succ g ihg =>
            intro at2 h2
            simp only [delaysFrom]
            cases proc at2 with
            | ok r => rfl
            | error e3 =>
              show (if at2 < m - 1 then
                  (if isRateLimitError e3 then b * 2 ^ at2 else b)
                    :: delaysFrom proc m b g (at2 + 1)
                else delaysFrom proc m b g (at2 + 1)) = []
              rw [if_neg h2]
              exact ihg (at2 + 1) (by omega)
        rw [hnil f (attempt + 1) (by omega)] at hj
        simp at hj

/-- C6: whenever the retry loop sleeps before the (j+1)-st retry of an item,
the recorded delay is `initialBackoff * 2 ^ j` if the failure that caused it
was detected as rate-limited, and the flat `initialBackoff` otherwise; under
rate-limited failures and a positive initial backoff the delays are strictly
increasing. -/
theorem C6_backoff_delays {R : Type} (maxRetries initialBackoffMs : Nat)
    (proc : Nat → Except String R) :
    (∀ j d, (runItem proc maxRetries initialBackoffMs).delays[j]? = some d →
      ∃ e, proc j = Except.error e ∧
        d = if isRateLimitError e then initialBackoffMs * 2 ^ j else initialBackoffMs) ∧
    (0 < initialBackoffMs →
      ∀ (j k dj dk : Nat), (runItem proc maxRetries initialBackoffMs).delays[j]? = some dj →
        (runItem proc maxRetries initialBackoffMs).delays[k]? = some dk → j < k →
        (∀ n e, proc n = Except.error e → isRateLimitError e = true) →
        dj < dk) := by
  have hdel : (runItem proc maxRetries initialBackoffMs).delays
      = delaysFrom proc maxRetries initialBackoffMs maxRetries 0 := by
    simpa using runItemGo_delays proc maxRetries initialBackoffMs maxRetries 0 none []
  constructor
  · intro j d hj
    rw [hdel] at hj
    simpa using delaysFrom_get proc maxRetries initialBackoffMs maxRetries 0 j d hj
  · intro hb j k dj dk hj hk hjk hrl
    rw [hdel] at hj hk
    obtain ⟨e1, he1, hv1⟩ := delaysFrom_get proc maxRetries initialBackoffMs maxRetries 0 j dj hj
    obtain ⟨e2, he2, hv2⟩ := delaysFrom_get proc maxRetries initialBackoffMs maxRetries 0 k dk hk
    rw [hrl j e1 (by simpa using he1)] at hv1
    rw [hrl k e2 (by simpa using he2)] at hv2
    simp only [if_pos] at hv1 hv2
    subst hv1; subst hv2
    simp only [Nat.zero_add]
    have h2 : (2 : Nat) ^ j < 2 ^ k := Nat.pow_lt_pow_right (by omega) hjk
    exact Nat.mul_lt_mul_of_le_of_lt (Nat.le_refl _) h2 (by omega)

/-- Processor that always fails with a rate-limit error (used as witness). -/
def alwaysRateLimited : Nat → Except String Nat :=
  fun _ => Except.error "HTTP 429 returned"

theorem C6_witness :
    ((runItem alwaysRateLimited 3 1000).delays[0]? = some 1000 ∧
      (runItem alwaysRateLimited 3 1000).delays[1]? = some 2000) ∧
    (∃ e, alwaysRateLimited 1 = Except.error e ∧
      (2000 : Nat) = if isRateLimitError e then 1000 * 2 ^ 1 else 1000) ∧
    (1000 : Nat) < 2000 := by
  refine ⟨⟨by with_unfolding_all rfl, by with_unfolding_all rfl⟩, ?_, ?_⟩
  · exact (C6_backoff_delays 3 1000 alwaysRateLimited).1 1 2000 (by with_unfolding_all rfl)
  · exact (C6_backoff_delays 3 1000 alwaysRateLimited).2 (by omega) 0 1 1000 2000
      (by with_unfolding_all rfl) (by with_unfolding_all rfl) (by omega)
      (fun n e he => by
        simp only [alwaysRateLimited] at he
        cases he
        with_unfolding_all rfl)

/-! ## Aggregator lemmas and claim C7 -/

theorem aggregateSummaries_calls (oracle : String → Except String String)
    (s : List String) (q : String) :
    (aggregateSummaries oracle s q).2 = [⟨s, buildAggPrompt s q⟩] := by
  unfold aggregateSummaries
  cases h : oracle (buildAggPrompt s q) <;> simp [h]

theorem flatten_map_singleton {α β : Type} (l : List α) (f : α → β) :
    (l.map (fun x => [f x])).flatten = l.map f := by
  induction l with
  | nil => rfl
  | cons x xs ih => simp [ih]

theorem chunkGo5_length {α : Type} :
    ∀ (fuel : Nat) (xs : List α), xs.length ≤ fuel →
    (chunkGo 5 fuel xs).length = (xs.length + 4) / 5 := by
  intro fuel
  induction fuel with
  | zero =>
    intro xs hxs
    cases xs with
    | nil => simp [chunkGo]
    | cons x xs => simp at hxs
  | succ f ih =>
    intro xs hxs
    cases xs with
    | nil => simp [chunkGo]
    | cons x xs =>
      have hlen : ((x :: xs).drop 5).length ≤ f := by
        simp only [List.length_drop, List.length_cons] at *
        omega
      have := ih ((x :: xs).drop 5) hlen
      simp only [chunkGo, List.length_cons, this, List.length_drop]
      omega

/-- C7: the reduce phase issues exactly one aggregation call when there are
at most `AGGREGATION_CHUNK_SIZE` summaries; otherwise it issues one call per
chunk (in order) followed by exactly one final call whose inputs are the
chunk-level outputs, for a total of `ceil(n/5) + 1` calls — in particular 3
chunk calls plus 1 final call for 12 summaries, and never more than two
levels of aggregation. -/
theorem C7_reduce_call_structure (oracle : String → Except String String)
    (summaries : List String) (query : String) :
    (reduceAggregate oracle summaries query).2.map (fun c => c.summaries)
      = (if summaries.length ≤ AGGREGATION_CHUNK_SIZE then [summaries]
         else chunkArray summaries AGGREGATION_CHUNK_SIZE
           ++ [(chunkArray summaries AGGREGATION_CHUNK_SIZE).map
                (fun chunk => (aggregateSummaries oracle chunk query).1)]) ∧
    (reduceAggregate oracle summaries query).2.length
      = (if summaries.length ≤ AGGREGATION_CHUNK_SIZE then 1
         else (summaries.length + 4) / 5 + 1) := by
  by_cases h : summaries.length ≤ AGGREGATION_CHUNK_SIZE
  · constructor
    · simp [reduceAggregate, h, aggregateSummaries_calls]
    · simp [reduceAggregate, h, aggregateSummaries_calls]
  · have hcalls : (reduceAggregate oracle summaries query).2
        = (chunkArray summaries AGGREGATION_CHUNK_SIZE).map
            (fun chunk => (⟨chunk, buildAggPrompt chunk query⟩ : AggCall))
          ++ [⟨(chunkArray summaries AGGREGATION_CHUNK_SIZE).map
                (fun chunk => (aggregateSummaries oracle chunk query).1),
              buildAggPrompt ((chunkArray summaries AGGREGATION_CHUNK_SIZE).map
                (fun chunk => (aggregateSummaries oracle chunk query).1)) query⟩] := by
      simp only [reduceAggregate, h, if_neg, not_false_eq_true]
      rw [aggregateSummaries_calls]
      congr 1
      · rw [← flatten_map_singleton (chunkArray summaries AGGREGATION_CHUNK_SIZE)
          (fun chunk => (⟨chunk, buildAggPrompt chunk query⟩ : AggCall))]
        congr 1
        rw [List.map_map]
        congr 1
        funext chunk
        rw [Function.comp_apply, aggregateSummaries_calls]
      · simp only [List.map_map]
        rfl
    constructor
    · rw [hcalls]
      simp only [List.map_append, List.map_map, List.map_cons, List.map_nil, if_neg h]
      congr 1
      have : ((fun c => AggCall.summaries c) ∘ fun chunk =>
          (⟨chunk, buildAggPrompt chunk query⟩ : AggCall)) = id := rfl
      rw [this, List.map_id]
    · rw [hcalls]
      simp only [List.length_append, List.length_map, List.length_cons, List.length_nil]
      rw [if_neg h]
      have := chunkGo5_length summaries.length summaries (Nat.le_refl _)
      simp only [chunkArray, AGGREGATION_CHUNK_SIZE]
      omega

/-! ## Claim C9: falsy direct-parse results are rejected -/

/-- C9: whenever the cleaned input parses directly as a falsy JSON value
(0, false, null or the empty string), `extractResearchResult` returns null,
treating the well-formed but falsy parse exactly like an extraction
failure. -/
theorem C9_falsy_parse_rejected (text : String) (v : JSVal)
    (hparse : jsonParseChars (cleanChars text.data) = some v)
    (hfalsy : jsFalsy v = true) :
    extractResearchResult text = none := by
  have hex : extractJSON text = jsRet v := by
    unfold extractJSON
    by_cases h : text = ""
    · exfalso
      have hnone : jsonParseChars (cleanChars ("" : String).data) = none := by
        with_unfolding_all rfl
      rw [h, hnone] at hparse
      simp at hparse
    · rw [if_neg h]
      unfold extractJSONChars
      simp only [hparse]
  unfold extractResearchResult
  rw [hex]
  cases v with
  | null => rfl
  | bool b =>
    cases b with
    | false => simp [jsRet, jsFalsy]
    | true => simp [jsFalsy] at hfalsy
  | num q => simp only [jsRet]; simp [hfalsy]
  | str s => simp only [jsRet]; simp [hfalsy]
  | arr xs => simp [jsFalsy] at hfalsy
  | obj fs => simp [jsFalsy] at hfalsy

theorem C9_witness :
    jsonParseChars (cleanChars ("0" : String).data) = some (JSVal.num 0) ∧
    jsFalsy (JSVal.num 0) = true ∧
    extractResearchResult "0" = none :=
  ⟨by with_unfolding_all rfl, by with_unfolding_all rfl,
    C9_falsy_parse_rejected "0" (JSVal.num 0) (by with_unfolding_all rfl)
      (by with_unfolding_all rfl)⟩

/-! ## Claim C2: the salvage path -/

/-- C2 counterexample: the input `\x7b"summary":"ok","confidence":2\x7d` fails
schema validation (confidence above 1) and carries a summary field, yet the
salvage result passes the numeric confidence through unclamped, so its
confidence 2 lies outside [0,1]. -/
theorem C2_counterexample :
    extractJSON "\x7b\"summary\":\"ok\",\"confidence\":2\x7d"
      = some (JSVal.obj [("summary", JSVal.str "ok"), ("confidence", JSVal.num 2)]) ∧
    validateResearch (JSVal.obj [("summary", JSVal.str "ok"), ("confidence", JSVal.num 2)]) = none ∧
    extractResearchResult "\x7b\"summary\":\"ok\",\"confidence\":2\x7d"
      = some ⟨"ok", JSVal.obj [], none, 2⟩ ∧
    ¬ ((2 : ℚ) ≤ 1) := by
  refine ⟨by with_unfolding_all rfl, by with_unfolding_all rfl, by with_unfolding_all rfl, by norm_num⟩

/-- C2 (amended): for every input whose extracted object fails validation
but has a summary field, the salvage path never throws and returns a
result; its confidence is the extracted numeric confidence passed through
unchanged (possibly outside [0,1]) and 0.3 otherwise; its summary is
non-empty whenever the extracted summary field is falsy or a string. -/
theorem C2_salvage_behavior (text : String) (fs : List (String × JSVal))
    (hex : extractJSON text = some (JSVal.obj fs))
    (hval : validateResearch (JSVal.obj fs) = none)
    (_hsum : (objGet fs "summary").isSome = true) :
    extractResearchResult text = some (salvageResearch (JSVal.obj fs)) ∧
    (salvageResearch (JSVal.obj fs)).confidence
      = (match objGet fs "confidence" with
         | some (JSVal.num q) => q
         | _ => (3 : ℚ) / 10) ∧
    ∀ sv, objGet fs "summary" = some sv →
      (jsFalsy sv = true ∨ ∃ s, sv = JSVal.str s) →
      (salvageResearch (JSVal.obj fs)).summary ≠ "" := by
  refine ⟨?_, ?_, ?_⟩
  · unfold extractResearchResult
    rw [hex]
    simp [jsFalsy, hval]
  · unfold salvageResearch salvageGet
    rcases hconf : objGet fs "confidence" with _ | v
    · simp [hconf]
    · cases v <;> simp [hconf]
  · intro sv hsv hcases
    unfold salvageResearch salvageGet
    simp only [hsv]
    rcases hcases with hf | ⟨s, rfl⟩
    · simp only [jsTruthy, hf]
      simp [researchPlaceholder]
    · by_cases hs : s = ""
      · subst hs
        simp [jsTruthy, jsFalsy, researchPlaceholder]
      · simp [jsTruthy, jsFalsy, hs, jsToString]

theorem C2_witness :
    extractJSON "\x7b\"summary\":\"\",\"confidence\":\"high\"\x7d"
      = some (JSVal.obj [("summary", JSVal.str ""), ("confidence", JSVal.str "high")]) ∧
    validateResearch (JSVal.obj [("summary", JSVal.str ""), ("confidence", JSVal.str "high")]) = none ∧
    (objGet [("summary", JSVal.str ""), ("confidence", JSVal.str "high")] "summary").isSome = true ∧
    extractResearchResult "\x7b\"summary\":\"\",\"confidence\":\"high\"\x7d"
      = some (salvageResearch (JSVal.obj [("summary", JSVal.str ""), ("confidence", JSVal.str "high")])) ∧
    (salvageResearch (JSVal.obj [("summary", JSVal.str ""), ("confidence", JSVal.str "high")])).summary ≠ "" := by
  have h := C2_salvage_behavior "\x7b\"summary\":\"\",\"confidence\":\"high\"\x7d"
    [("summary", JSVal.str ""), ("confidence", JSVal.str "high")]
    (by with_unfolding_all rfl) (by with_unfolding_all rfl) (by with_unfolding_all rfl)
  refine ⟨by with_unfolding_all rfl, by with_unfolding_all rfl, by with_unfolding_all rfl, h.1, ?_⟩
  exact h.2.2 (JSVal.str "") (by with_unfolding_all rfl) (Or.inl (by with_unfolding_all rfl))

/-! ## Claim C1: total provider outage -/

/-- C1 (amended): when every provider call throws, `researchCompletion`
does not reject: it resolves with the fixed degraded result (provider
`openrouter`, 3 attempts), the row worker emits one `processing` and one
`completed` event for the row (and no `error` event), and the returned
mapping contains the row bound to the degraded result. -/
theorem C1_total_outage_behavior (query : String) (entityData : List (String × String))
    (e1 e2 : String) (erep : Nat → String → String) (row : SpreadsheetRow) (now : Nat) :
    researchCompletion query entityData (Except.error e1) (Except.error e2)
      (fun n p => Except.error (erep n p))
      = Except.ok ⟨degradedResearchResult, LLMProvider.openrouter, 3⟩ ∧
    (processRows now query
      (fun _ => ⟨Except.error e1, Except.error e2, fun n p => Except.error (erep n p)⟩)
      [row]).1
      = [(row.id, [⟨row.id, WStatus.processing, none, none⟩,
          ⟨row.id, WStatus.completed, some (toResearchResult now degradedResearchResult), none⟩])] ∧
    (processRows now query
      (fun _ => ⟨Except.error e1, Except.error e2, fun n p => Except.error (erep n p)⟩)
      [row]).2 row.id = some (toResearchResult now degradedResearchResult) := by
  refine ⟨by with_unfolding_all rfl, by with_unfolding_all rfl, ?_⟩
  show (if row.id = row.id then some (toResearchResult now degradedResearchResult)
    else if row.id = row.id then some (toResearchResult now degradedResearchResult)
    else none) = some (toResearchResult now degradedResearchResult)
  rw [if_pos rfl]

/-- C1 counterexample: at a concrete batch of one row with both providers
(and the repair channel) always throwing, `researchCompletion` resolves
(does not reject), the worker emits a `completed` event and no `error`
event for the row, and the result mapping does contain the row. -/
theorem C1_counterexample :
    researchCompletion "q" [("name", "x")] (Except.error "boom1") (Except.error "boom2")
      (fun _ _ => Except.error "boom3")
      = Except.ok ⟨degradedResearchResult, LLMProvider.openrouter, 3⟩ ∧
    (processRows 0 "q"
      (fun _ => ⟨Except.error "boom1", Except.error "boom2", fun _ _ => Except.error "boom3"⟩)
      [⟨"r1", [("name", "x")]⟩]).1
      = [("r1", [⟨"r1", WStatus.processing, none, none⟩,
          ⟨"r1", WStatus.completed, some (toResearchResult 0 degradedResearchResult), none⟩])] ∧
    ¬ ((processRows 0 "q"
      (fun _ => ⟨Except.error "boom1", Except.error "boom2", fun _ _ => Except.error "boom3"⟩)
      [⟨"r1", [("name", "x")]⟩]).2 "r1" = none) := by
  refine ⟨by with_unfolding_all rfl, by with_unfolding_all rfl, ?_⟩
  intro h
  rw [show (processRows 0 "q"
      (fun _ => ⟨Except.error "boom1", Except.error "boom2", fun _ _ => Except.error "boom3"⟩)
      [⟨"r1", [("name", "x")]⟩]).2 "r1" = some (toResearchResult 0 degradedResearchResult)
    from by with_unfolding_all rfl] at h
  simp at h

/-! ## Word counting lemmas and claim C8 -/

/-- Number of (nonempty) words in a token list. -/
def wordTokens (l : List String) : Nat := (l.filter (fun w => w ≠ "")).length

/-- Number of whitespace-separated words of a string. -/
def countWords (s : String) : Nat := wordTokens (jsSplitWs s)

theorem wordTokens_le_length (l : List String) : wordTokens l ≤ l.length := by
  unfold wordTokens
  exact List.length_filter_le _ l

theorem splitWsGo_append_wsFree :
    ∀ (t cs acc : List Char), (∀ c ∈ t, isJsWs c = false) →
    splitWsGo (t ++ cs) acc = splitWsGo cs (t.reverse ++ acc) := by
  intro t
  induction t with
  | nil => intro cs acc _; simp
  | cons c t ih =>
    intro cs acc hws
    have hc : isJsWs c = false := hws c (List.mem_cons_self c t)
    simp only [List.cons_append, splitWsGo, hc, Bool.false_eq_true, if_neg, not_false_eq_true]
    show splitWsGo (t ++ cs) (c :: acc) = splitWsGo cs ((c :: t).reverse ++ acc)
    rw [ih cs (c :: acc) (fun x hx => hws x (List.mem_cons_of_mem c hx))]
    simp

theorem splitWsGo_nil_acc (acc : List Char) :
    splitWsGo [] acc = [String.mk acc.reverse] := rfl

theorem wordTokens_skip_eq_go (cs : List Char) :
    wordTokens (splitWsSkip cs) = wordTokens (splitWsGo cs []) := by
  cases cs with
  | nil => rfl
  | cons c cs =>
    cases h : isJsWs c with
    | true => simp [splitWsSkip, splitWsGo, h, wordTokens]
    | false => simp [splitWsSkip, splitWsGo, h]

theorem wordTokens_cons_le (x : String) (l : List String) :
    wordTokens (x :: l) ≤ 1 + wordTokens l := by
  unfold wordTokens
  rw [List.filter_cons]
  by_cases h : x = ""
  · simp [h]
  · simp [h]
    omega

theorem splitWsGo_single_token (cs : List Char) (h : ∀ c ∈ cs, isJsWs c = false) :
    splitWsGo cs [] = [String.mk cs] := by
  have := splitWsGo_append_wsFree cs [] [] h
  simpa [splitWsGo_nil_acc] using this

theorem joinWords_word_bound :
    ∀ (ws : List String) (sfx : String), ws ≠ [] →
    (∀ t ∈ ws, ∀ c ∈ t.data, isJsWs c = false) →
    (∀ c ∈ sfx.data, isJsWs c = false) →
    wordTokens (splitWsGo ((joinWords ws ++ sfx).data) []) ≤ ws.length := by
  intro ws
  induction ws with
  | nil => intro sfx h; exact absurd rfl h
  | cons w ws ih =>
    intro sfx _ hws hsfx
    cases ws with
    | nil =>
      have hall : ∀ c ∈ ((joinWords [w] ++ sfx).data), isJsWs c = false := by
        show ∀ c ∈ ((w ++ sfx).data), isJsWs c = false
        rw [String.data_append]
        intro c hc
        rcases List.mem_append.1 hc with h | h
        · exact hws w (by simp) c h
        · exact hsfx c h
      rw [splitWsGo_single_token _ hall]
      have := wordTokens_le_length [String.mk ((joinWords [w] ++ sfx).data)]
      simpa using this
    | cons w2 ws2 =>
      have hdata : ((joinWords (w :: w2 :: ws2) ++ sfx).data)
          = w.data ++ (' ' :: ((joinWords (w2 :: ws2) ++ sfx).data)) := by
        show (((w ++ " " ++ joinWords (w2 :: ws2))) ++ sfx).data = _
        rw [String.data_append, String.data_append, String.data_append]
        simp
      rw [hdata, splitWsGo_append_wsFree w.data _ [] (hws w (by simp))]
      have hstep : splitWsGo (' ' :: ((joinWords (w2 :: ws2) ++ sfx).data))
          (w.data.reverse ++ [])
          = String.mk (w.data.reverse ++ []).reverse
            :: splitWsSkip ((joinWords (w2 :: ws2) ++ sfx).data) := by
        simp [splitWsGo, isJsWs]
      rw [hstep]
      have h1 := wordTokens_cons_le (String.mk (w.data.reverse ++ []).reverse)
        (splitWsSkip ((joinWords (w2 :: ws2) ++ sfx).data))
      have h2 := wordTokens_skip_eq_go ((joinWords (w2 :: ws2) ++ sfx).data)
      have h3 := ih sfx (by simp) (fun t ht c hc => hws t (List.mem_cons_of_mem w ht) c hc) hsfx
      simp only [List.length_cons] at *
      omega

theorem splitTokens_wsFree :
    ∀ (cs : List Char),
    (∀ acc, (∀ c ∈ acc, isJsWs c = false) →
      ∀ w ∈ splitWsGo cs acc, ∀ c ∈ w.data, isJsWs c = false) ∧
    (∀ w ∈ splitWsSkip cs, ∀ c ∈ w.data, isJsWs c = false) := by
  intro cs
  induction cs with
  | nil =>
    constructor
    · intro acc hacc w hw c hc
      simp only [splitWsGo, List.mem_singleton] at hw
      subst hw
      simp only [String.data] at hc
      exact hacc c (by simpa using hc)
    · intro w hw c hc
      simp only [splitWsSkip, List.mem_singleton] at hw
      subst hw
      simp at hc
  | cons c0 cs ih =>
    constructor
    · intro acc hacc w hw c hc
      cases h : isJsWs c0 with
      | true =>
        simp only [splitWsGo, h, if_pos] at hw
        rcases List.mem_cons.1 hw with h1 | h1
        · subst h1
          simp only [String.data] at hc
          exact hacc c (by simpa using hc)
        · exact ih.2 w h1 c hc
      | false =>
        simp only [splitWsGo, h, Bool.false_eq_true, if_neg, not_false_eq_true] at hw
        refine ih.1 (c0 :: acc) ?_ w hw c hc
        intro x hx
        rcases List.mem_cons.1 hx with h1 | h1
        · subst h1; exact h
        · exact hacc x h1
    · intro w hw c hc
      cases h : isJsWs c0 with
      | true =>
        simp only [splitWsSkip, h, if_pos] at hw
        exact ih.2 w hw c hc
      | false =>
        simp only [splitWsSkip, h, Bool.false_eq_true, if_neg, not_false_eq_true] at hw
        refine ih.1 [c0] ?_ w hw c hc
        intro x hx
        simp only [List.mem_singleton] at hx
        subst hx; exact h

theorem skip_eq_go_of_not_ws (c : Char) (cs : List Char) (h : isJsWs c = false) :
    splitWsSkip (c :: cs) = splitWsGo (c :: cs) [] := by
  simp [splitWsSkip, splitWsGo, h]

theorem jsSplitWs_joinWords :
    ∀ (ws : List String), ws ≠ [] →
    (∀ w ∈ ws, ¬ (w = "") ∧ ∀ c ∈ w.data, isJsWs c = false) →
    jsSplitWs (joinWords ws) = ws := by
  intro ws
  induction ws with
  | nil => intro h; exact absurd rfl h
  | cons w ws ih =>
    intro _ hws
    cases ws with
    | nil =>
      show splitWsGo (joinWords [w]).data [] = [w]
      rw [show joinWords [w] = w from rfl,
        splitWsGo_single_token w.data (hws w (by simp)).2]
    | cons w2 ws2 =>
      have hdata : (joinWords (w :: w2 :: ws2)).data
          = w.data ++ (' ' :: (joinWords (w2 :: ws2)).data) := by
        show ((w ++ " " ++ joinWords (w2 :: ws2))).data = _
        rw [String.data_append, String.data_append]
        simp
      show splitWsGo (joinWords (w :: w2 :: ws2)).data [] = w :: w2 :: ws2
      rw [hdata, splitWsGo_append_wsFree w.data _ [] (hws w (by simp)).2]
      have hstep : splitWsGo (' ' :: ((joinWords (w2 :: ws2)).data)) (w.data.reverse ++ [])
          = String.mk (w.data.reverse ++ []).reverse
            :: splitWsSkip ((joinWords (w2 :: ws2)).data) := by
        simp [splitWsGo, isJsWs]
      rw [hstep]
      have hw2 : ∃ c cs2, w2.data = c :: cs2 ∧ isJsWs c = false := by
        have h2 := hws w2 (by simp)
        cases hd : w2.data with
        | nil =>
          exfalso
          apply h2.1
          have hnil : w2.data = [] := hd
          cases w2
          simp only [] at hnil
          subst hnil
          rfl
        | cons c cs2 =>
          exact ⟨c, cs2, rfl, h2.2 c (by rw [hd]; simp)⟩
      obtain ⟨c, cs2, hcs, hcws⟩ := hw2
      have hjtail : ∃ tail, (joinWords (w2 :: ws2)).data = w2.data ++ tail := by
        cases ws2 with
        | nil => exact ⟨[], by rw [show joinWords [w2] = w2 from rfl]; simp⟩
        | cons w3 ws3 =>
          refine ⟨' ' :: (joinWords (w3 :: ws3)).data, ?_⟩
          show ((w2 ++ " " ++ joinWords (w3 :: ws3))).data = _
          rw [String.data_append, String.data_append]
          simp
      obtain ⟨tail, htail⟩ := hjtail
      have hskip : splitWsSkip ((joinWords (w2 :: ws2)).data)
          = splitWsGo ((joinWords (w2 :: ws2)).data) [] := by
        rw [htail, hcs]
        exact skip_eq_go_of_not_ws c (cs2 ++ tail) hcws
      rw [hskip]
      have hrec := ih (by simp) (fun t ht => hws t (List.mem_cons_of_mem w ht))
      rw [show jsSplitWs (joinWords (w2 :: ws2))
          = splitWsGo ((joinWords (w2 :: ws2)).data) [] from rfl] at hrec
      rw [hrec]
      simp

theorem countWords_truncateToWords_le (s : String) (maxW : Nat) (hmw : 0 < maxW) :
    countWords (truncateToWords s maxW) ≤ maxW := by
  unfold truncateToWords
  by_cases h : (jsSplitWs s).length ≤ maxW
  · simp only [h, if_pos]
    calc countWords s ≤ (jsSplitWs s).length := wordTokens_le_length _
      _ ≤ maxW := h
  · simp only [h, if_neg, not_false_eq_true]
    have htok := (splitTokens_wsFree s.data).1 [] (by simp)
    have htake : ∀ t ∈ (jsSplitWs s).take maxW, ∀ c ∈ t.data, isJsWs c = false :=
      fun t ht => htok t (List.mem_of_mem_take ht)
    have hne : (jsSplitWs s).take maxW ≠ [] := by
      intro hcontra
      have hlen := congrArg List.length hcontra
      simp only [List.length_take, List.length_nil] at hlen
      omega
    have hbound := joinWords_word_bound ((jsSplitWs s).take maxW) "..." hne htake (by decide)
    calc countWords (joinWords ((jsSplitWs s).take maxW) ++ "...")
        = wordTokens (splitWsGo ((joinWords ((jsSplitWs s).take maxW) ++ "...").data) []) := rfl
      _ ≤ ((jsSplitWs s).take maxW).length := hbound
      _ ≤ maxW := by simp [List.length_take]

/-- C8: every map-phase summary contains at most `MAX_SUMMARY_WORDS` (200)
words, and a clean 1000-word summary is truncated to exactly its first 200
words followed by the ellipsis marker. -/
theorem C8_map_word_cap :
    (∀ r : ExtractedResearch, countWords (mapSummarizeOne r) ≤ MAX_SUMMARY_WORDS) ∧
    (∀ ws : List String, ws.length = 1000 →
      (∀ w ∈ ws, ¬ (w = "") ∧ ∀ c ∈ w.data, isJsWs c = false) →
      truncateToWords (joinWords ws) MAX_SUMMARY_WORDS
        = joinWords (ws.take MAX_SUMMARY_WORDS) ++ "...") := by
  constructor
  · intro r
    exact countWords_truncateToWords_le _ MAX_SUMMARY_WORDS (by decide)
  · intro ws hlen hws
    unfold truncateToWords
    rw [jsSplitWs_joinWords ws (by intro h; rw [h] at hlen; simp at hlen) hws]
    show (if ws.length ≤ MAX_SUMMARY_WORDS then joinWords ws
      else joinWords (List.take MAX_SUMMARY_WORDS ws) ++ "...") = _
    rw [hlen, if_neg (by decide)]

theorem C8_witness :
    (List.replicate 1000 "w").length = 1000 ∧
    truncateToWords (joinWords (List.replicate 1000 "w")) MAX_SUMMARY_WORDS
      = joinWords (List.replicate 200 "w") ++ "..." := by
  constructor
  · rw [List.length_replicate]
  · have h := C8_map_word_cap.2 (List.replicate 1000 "w") (by rw [List.length_replicate])
      (by
        intro w hw
        rw [List.eq_of_mem_replicate hw]
        exact ⟨by decide, by decide⟩)
    rw [h, List.take_replicate]
    norm_num [MAX_SUMMARY_WORDS]

/-! ## Claim C3: inputs without a brace pair -/

/-- Does the text contain an opening brace with a closing brace somewhere
after it (the minimal requirement for any balanced `\x7b...\x7d` region)? -/
def hasBracePair : List Char → Bool
  | [] => false
  | c :: cs => (c = lbrace && cs.contains rbrace) || hasBracePair cs

theorem hasBracePair_sublist {cs1 cs2 : List Char} (h : List.Sublist cs1 cs2)
    (hb : hasBracePair cs1 = true) : hasBracePair cs2 = true := by
  induction h with
  | slnil => simp [hasBracePair] at hb
  | cons c hsub ih =>
    simp only [hasBracePair, Bool.or_eq_true]
    exact Or.inr (ih hb)
  | cons₂ c hsub ih =>
    simp only [hasBracePair, Bool.or_eq_true, Bool.and_eq_true] at hb ⊢
    rcases hb with ⟨h1, h2⟩ | hb
    · refine Or.inl ⟨h1, ?_⟩
      rw [List.elem_iff] at h2 ⊢
      exact hsub.subset h2
    · exact Or.inr (ih hb)

theorem hasBracePair_cons_false {c : Char} {cs : List Char}
    (h : hasBracePair (c :: cs) = false) : hasBracePair cs = false := by
  simp only [hasBracePair, Bool.or_eq_false_iff] at h
  exact h.2

theorem trimChars_sublist (cs : List Char) : List.Sublist (trimChars cs) cs := by
  unfold trimChars dropLeadWs
  have h1 : List.Sublist (cs.dropWhile (fun c => isJsWs c)) cs :=
    List.dropWhile_sublist _
  have h2 : List.Sublist
      ((cs.dropWhile (fun c => isJsWs c)).reverse.dropWhile (fun c => isJsWs c))
      (cs.dropWhile (fun c => isJsWs c)).reverse :=
    List.dropWhile_sublist _
  have h3 := h2.reverse
  simp only [List.reverse_reverse] at h3
  exact h3.trans h1

theorem dropTag_sublist (cs : List Char) : List.Sublist (dropTag cs) cs := by
  unfold dropTag
  by_cases h1 : startsList cs ("json".data) = true
  · simp only [h1, if_pos]; exact List.drop_sublist 4 cs
  · simp only [h1]
    by_cases h2 : startsList cs ("javascript".data) = true
    · simp only [h2, if_pos]; exact List.drop_sublist 10 cs
    · simp only [h2]
      by_cases h3 : startsList cs ("js".data) = true
      · simp only [h3, if_pos]; exact List.drop_sublist 2 cs
      · simp only [h3]
        exact List.Sublist.refl cs

theorem cleanChars_sublist (cs : List Char) : List.Sublist (cleanChars cs) cs := by
  unfold cleanChars stripFencesChars
  by_cases h : (startsList (trimChars cs) ("```".data) &&
      endsList (trimChars cs) ("```".data) && decide (6 ≤ (trimChars cs).length)) = true
  · simp only [h, if_pos]
    refine ((trimChars_sublist _).trans ((dropTag_sublist _).trans ?_)).trans
      (trimChars_sublist cs)
    refine (List.dropLast_sublist _).trans ?_
    refine (List.dropLast_sublist _).trans ?_
    refine (List.dropLast_sublist _).trans ?_
    exact List.drop_sublist 3 _
  · simp only [h]
    exact trimChars_sublist cs

theorem scanBalanced_none_of_no_rbrace :
    ∀ (l : List Char) (d : Int) (inStr esc : Bool) (acc : List Char),
    rbrace ∉ l → scanBalanced l d inStr esc acc = none := by
  intro l
  induction l with
  | nil => intro d inStr esc acc _; rfl
  | cons c cs ih =>
    intro d inStr esc acc hmem
    have hc : ¬ (c = rbrace) := fun h => hmem (h ▸ List.mem_cons_self c cs)
    have hcs : rbrace ∉ cs := fun h => hmem (List.mem_cons_of_mem c h)
    unfold scanBalanced
    repeat' split
    any_goals exact ih _ _ _ _ hcs
    rename_i hin hrb
    exfalso
    simp only [Bool.and_eq_true, decide_eq_true_eq] at hin
    exact hc hin.2

theorem dropUntilBrace_spec :
    ∀ (cs suf : List Char), dropUntilBrace cs = some suf →
    List.Sublist suf cs ∧ (∃ preX, cs = preX ++ suf) ∧ ∃ tl, suf = lbrace :: tl := by
  intro cs
  induction cs with
  | nil => intro suf h; simp [dropUntilBrace] at h
  | cons c cs ih =>
    intro suf h
    unfold dropUntilBrace at h
    by_cases hc : c = lbrace
    · rw [if_pos hc] at h
      cases h
      exact ⟨List.Sublist.refl _, ⟨[], rfl⟩, cs, by rw [hc]⟩
    · rw [if_neg hc] at h
      obtain ⟨hsub, ⟨preX, hcat⟩, tl, htl⟩ := ih suf h
      exact ⟨hsub.cons c, ⟨c :: preX, by rw [List.cons_append, ← hcat]⟩, tl, htl⟩

theorem findJSONObjectChars_none (cs : List Char) (h : hasBracePair cs = false) :
    findJSONObjectChars cs = none := by
  unfold findJSONObjectChars
  cases hd : dropUntilBrace cs with
  | none => rfl
  | some suf =>
    obtain ⟨hsub, -, tl, rfl⟩ := dropUntilBrace_spec cs _ hd
    have hnotl : rbrace ∉ (lbrace :: tl) := by
      intro hmem
      rcases List.mem_cons.1 hmem with h1 | h1
      · exact absurd h1.symm (by decide)
      · have hbp : hasBracePair (lbrace :: tl) = true := by
          simp only [hasBracePair, Bool.or_eq_true, Bool.and_eq_true]
          exact Or.inl ⟨by simp, by rw [List.elem_iff]; exact h1⟩
        rw [hasBracePair_sublist hsub hbp] at h
        simp at h
    exact scanBalanced_none_of_no_rbrace _ _ _ _ _ hnotl

theorem cutAtLastRbrace_none (cs : List Char) (h : rbrace ∉ cs) :
    cutAtLastRbrace cs = none := by
  unfold cutAtLastRbrace
  have hnil : cs.reverse.dropWhile (fun c => !(c = rbrace)) = [] := by
    refine List.dropWhile_eq_nil_iff.mpr ?_
    intro x hx
    have : x ∈ cs := List.mem_reverse.1 hx
    simp only [Bool.not_eq_true']
    exact decide_eq_false (fun hxr => h (hxr ▸ this))
  simp [hnil]

theorem dropWhile_head_false (p : Char → Bool) :
    ∀ (l : List Char) (x : Char) (xs : List Char), l.dropWhile p = x :: xs → p x = false := by
  intro l
  induction l with
  | nil => intro x xs h; simp at h
  | cons c cs ih =>
    intro x xs h
    by_cases hc : p c = true
    · rw [List.dropWhile_cons_of_pos hc] at h
      exact ih x xs h
    · rw [List.dropWhile_cons_of_neg hc] at h
      cases h
      simpa using hc

theorem cutAtLastRbrace_spec (cs pre : List Char) (h : cutAtLastRbrace cs = some pre) :
    List.Sublist pre cs ∧ rbrace ∈ cs ∧ ∃ pre0, pre = pre0 ++ [rbrace] := by
  unfold cutAtLastRbrace at h
  cases hr : cs.reverse.dropWhile (fun c => !(c = rbrace)) with
  | nil => rw [hr] at h; simp at h
  | cons x r2 =>
    rw [hr] at h
    simp only [List.isEmpty_cons, Bool.false_eq_true, if_neg, not_false_eq_true,
      Option.some.injEq] at h
    subst h
    have hx : (!(x = rbrace)) = false := dropWhile_head_false _ cs.reverse x r2 hr
    have hxeq : x = rbrace := by simpa using hx
    have hsub1 : List.Sublist (x :: r2) cs.reverse := hr ▸ List.dropWhile_sublist _
    refine ⟨?_, ?_, r2.reverse, ?_⟩
    · have := hsub1.reverse
      simpa using this
    · have : x ∈ cs.reverse := hsub1.subset (List.mem_cons_self x r2)
      exact hxeq ▸ List.mem_reverse.1 this
    · rw [hxeq]
      simp

theorem afterCISub_sublist (pat : List Char) :
    ∀ (l r : List Char), afterCISub pat l = some r → List.Sublist r l := by
  intro l
  induction l with
  | nil =>
    intro r h
    unfold afterCISub at h
    by_cases hp : pat.isEmpty = true
    · rw [if_pos hp] at h; cases h; exact List.Sublist.refl _
    · rw [if_neg hp] at h; cases h
  | cons c cs ih =>
    intro r h
    unfold afterCISub at h
    by_cases hp : startsCI (c :: cs) pat = true
    · rw [if_pos hp] at h
      cases h
      exact List.drop_sublist _ _
    · rw [if_neg hp] at h
      exact (ih r h).cons c

theorem matchLabelAt_sublist (cs r : List Char) (h : matchLabelAt cs = some r) :
    List.Sublist r cs := by
  unfold matchLabelAt at h
  cases hf : p1Labels.find? (fun l => startsCI cs l) with
  | none => rw [hf] at h; cases h
  | some l =>
    rw [hf] at h
    cases h
    exact List.drop_sublist _ _

theorem afterColon_sublist (l : List Char) : List.Sublist (afterColon l) l := by
  unfold afterColon
  cases l with
  | nil => simp
  | cons c r =>
    show (if (c = ':' || c = '=') = true then r else c :: r).Sublist (c :: r)
    by_cases hce : (c = ':' || c = '=') = true
    · rw [if_pos hce]
      exact List.sublist_cons_self c r
    · rw [if_neg hce]

theorem afterLabel_spec (x c3 : List Char) (h : afterLabel x = some c3) :
    List.Sublist c3 x ∧ ∃ tl, c3 = lbrace :: tl := by
  unfold afterLabel at h
  cases hm : (afterColon (x.dropWhile (fun c => isJsWs c))).dropWhile (fun c => isJsWs c) with
  | nil => rw [hm] at h; cases h
  | cons c rest =>
    rw [hm] at h
    have h0 : (if c = lbrace then some (c :: rest) else none) = some c3 := h
    by_cases hcb : c = lbrace
    · rw [if_pos hcb] at h0
      cases h0
      constructor
      · have h1 : List.Sublist (c :: rest)
            (afterColon (x.dropWhile (fun c => isJsWs c))) :=
          hm ▸ List.dropWhile_sublist _
        have h2 := afterColon_sublist (x.dropWhile (fun c => isJsWs c))
        have h3 : List.Sublist (x.dropWhile (fun c => isJsWs c)) x :=
          List.dropWhile_sublist _
        exact (h1.trans h2).trans h3
      · exact ⟨rest, by rw [hcb]⟩
    · rw [if_neg hcb] at h0
      cases h0

theorem scanP1_none : ∀ (cs : List Char), hasBracePair cs = false → scanP1 cs = none := by
  intro cs
  induction cs with
  | nil => intro _; rfl
  | cons c cs ih =>
    intro h
    unfold scanP1
    cases hm : (matchLabelAt (c :: cs)).bind afterLabel with
    | none => exact ih (hasBracePair_cons_false h)
    | some fromBrace =>
      obtain ⟨y, hy, hafter⟩ := Option.bind_eq_some.1 hm
      have hsub : List.Sublist fromBrace (c :: cs) :=
        ((afterLabel_spec y fromBrace hafter).1).trans (matchLabelAt_sublist _ y hy)
      obtain ⟨tl, rfl⟩ := (afterLabel_spec y fromBrace hafter).2
      have hno : rbrace ∉ (lbrace :: tl) := by
        intro hmem
        rcases List.mem_cons.1 hmem with h1 | h1
        · exact absurd h1.symm (by decide)
        · have hbp : hasBracePair (lbrace :: tl) = true := by
            simp only [hasBracePair, Bool.or_eq_true, Bool.and_eq_true]
            exact Or.inl ⟨by simp, by rw [List.elem_iff]; exact h1⟩
          rw [hasBracePair_sublist hsub hbp] at h
          simp at h
      simp only [cutAtLastRbrace_none _ hno]
      exact ih (hasBracePair_cons_false h)

theorem p2FeasFrom_false (c : Char) (cs : List Char) (hc : c = lbrace)
    (h : hasBracePair (c :: cs) = false) : p2FeasFrom (c :: cs) = false := by
  unfold p2FeasFrom
  cases hs : afterCISub ("\"summary\"".data) ((c :: cs).drop 1) with
  | none => simp
  | some afterSum =>
    cases hcf : afterCISub ("\"confidence\"".data) afterSum with
    | none => simp [hcf]
    | some afterConf =>
      cases hmem : afterConf.contains rbrace with
      | false =>
        simp only [hcf]
        simpa [List.contains, List.elem_eq_mem] using hmem
      | true =>
        exfalso
        have h1 : List.Sublist afterConf cs := by
          have s1 := afterCISub_sublist _ _ _ hs
          have s2 := afterCISub_sublist _ _ _ hcf
          simpa using s2.trans s1
        have : rbrace ∈ cs := h1.subset (List.elem_iff.1 hmem)
        rw [show hasBracePair (c :: cs)
            = ((c = lbrace && cs.contains rbrace) || hasBracePair cs) from rfl] at h
        simp only [Bool.or_eq_false_iff, Bool.and_eq_false_iff] at h
        rcases h.1 with h2 | h2
        · exact absurd hc (by simpa using h2)
        · exact absurd (List.elem_iff.2 this) (by simpa using h2)

theorem scanP2_none : ∀ (cs : List Char), hasBracePair cs = false → scanP2 cs = none := by
  intro cs
  induction cs with
  | nil => intro _; rfl
  | cons c cs ih =>
    intro h
    unfold scanP2
    by_cases hc : c = lbrace
    · rw [p2FeasFrom_false c cs hc h]
      simp only [Bool.and_false, Bool.false_eq_true, if_neg, not_false_eq_true]
      exact ih (hasBracePair_cons_false h)
    · have : (c = lbrace && p2FeasFrom (c :: cs)) = false := by
        simp [hc]
      rw [this]
      simp only [Bool.false_eq_true, if_neg, not_false_eq_true]
      exact ih (hasBracePair_cons_false h)

theorem p3Match_none (cs : List Char) (h : hasBracePair cs = false) :
    p3Match cs = none := by
  unfold p3Match
  cases hcut : cutAtLastRbrace cs with
  | none => rfl
  | some pre =>
    obtain ⟨hpresub, hrb, pre0, hpre⟩ := cutAtLastRbrace_spec cs pre hcut
    show (if ((cs.drop pre.length).all fun c => isJsWs c) = true then
        match dropUntilBrace pre with
        | some fromBrace => if 2 ≤ fromBrace.length then some fromBrace else none
        | none => none
      else none) = none
    by_cases hws : ((cs.drop pre.length).all (fun c => isJsWs c)) = true
    · rw [if_pos hws]
      cases hdrop : dropUntilBrace pre with
      | none => rfl
      | some fromBrace =>
        obtain ⟨hfsub, ⟨preX, hcat⟩, tl2, rfl⟩ := dropUntilBrace_spec pre _ hdrop
        by_cases hlen : 2 ≤ (lbrace :: tl2).length
        · show (if 2 ≤ (lbrace :: tl2).length then some (lbrace :: tl2) else none) = none
          exfalso
          have htl2ne : tl2 ≠ [] := by
            intro hnil
            rw [hnil] at hlen
            simp at hlen
          have hlast : (lbrace :: tl2).getLast? = some rbrace := by
            have e1 : pre.getLast? = some rbrace := by
              rw [hpre]
              exact List.getLast?_concat pre0
            rw [hcat, List.getLast?_append_of_ne_nil preX (by simp)] at e1
            exact e1
          have hmem : rbrace ∈ tl2 := by
            have e2 : (lbrace :: tl2).getLast? = tl2.getLast? := by
              rw [show lbrace :: tl2 = [lbrace] ++ tl2 from rfl,
                List.getLast?_append_of_ne_nil [lbrace] htl2ne]
            rw [e2] at hlast
            exact List.mem_of_mem_getLast? hlast
          have hbp : hasBracePair (lbrace :: tl2) = true := by
            simp only [hasBracePair, Bool.or_eq_true, Bool.and_eq_true]
            exact Or.inl ⟨by simp, by rw [List.elem_iff]; exact hmem⟩
          rw [hasBracePair_sublist (hfsub.trans hpresub) hbp] at h
          simp at h
        · show (if 2 ≤ (lbrace :: tl2).length then some (lbrace :: tl2) else none) = none
          rw [if_neg hlen]
    · rw [if_neg hws]

theorem extractJSONFromTextChars_none (cs : List Char) (h : hasBracePair cs = false) :
    extractJSONFromTextChars cs = none := by
  unfold extractJSONFromTextChars
  rw [scanP1_none cs h]
  rw [scanP2_none cs h]
  exact p3Match_none cs h

theorem extractStep4_none (cs : List Char) (h : hasBracePair cs = false) :
    extractStep4 cs = none := by
  unfold extractStep4
  rw [extractJSONFromTextChars_none cs h]

/-- C3 (amended): on an input without any opening brace followed by a
closing brace (so certainly without a balanced region), `extractJSON` is
exactly the direct `JSON.parse` of the cleaned text (null collapsing to
null); in particular it returns null whenever the cleaned text is not
itself a complete JSON value, but a brace-free input such as "42" that
parses directly is returned, not rejected. -/
theorem C3_no_brace_region (s : String) (h : hasBracePair s.data = false) :
    extractJSON s = (jsonParseChars (cleanChars s.data)).bind jsRet := by
  by_cases hs : s = ""
  · subst hs
    with_unfolding_all rfl
  · unfold extractJSON
    rw [if_neg hs]
    unfold extractJSONChars
    have hclean : hasBracePair (cleanChars s.data) = false := by
      cases hh : hasBracePair (cleanChars s.data) with
      | false => rfl
      | true =>
        rw [hasBracePair_sublist (cleanChars_sublist s.data) hh] at h
        simp at h
    cases hp : jsonParseChars (cleanChars s.data) with
    | some v => simp [hp]
    | none =>
      simp only [hp, findJSONObjectChars_none _ hclean, extractStep4_none _ hclean]
      rfl

theorem C3_counterexample :
    hasBracePair ("42" : String).data = false ∧
    extractJSON "42" = some (JSVal.num 42) ∧
    ¬ (extractJSON "42" = none) := by
  refine ⟨by decide, by with_unfolding_all rfl, ?_⟩
  intro hnone
  rw [show extractJSON "42" = some (JSVal.num 42) from by with_unfolding_all rfl] at hnone
  simp at hnone

theorem C3_witness :
    hasBracePair ("hello" : String).data = false ∧
    extractJSON "hello" = (jsonParseChars (cleanChars ("hello" : String).data)).bind jsRet :=
  ⟨by decide, C3_no_brace_region "hello" (by decide)⟩

/-! ## Parser stability lemmas: appending input to a successful parse -/

theorem skipWs_append (A x : List Char) :
    skipWs (A ++ x) = if (skipWs A).isEmpty then skipWs x else skipWs A ++ x := by
  induction A with
  | nil => simp [skipWs]
  | cons c cs ih =>
    by_cases hc : isJsonWs c = true
    · simp only [List.cons_append, skipWs, hc, if_pos]
      exact ih
    · simp only [List.cons_append, skipWs, hc, Bool.false_eq_true, if_neg, not_false_eq_true,
        List.isEmpty_cons]
      rfl

theorem skipWs_cons_append {cs : List Char} {c : Char} {rest : List Char}
    (h : skipWs cs = c :: rest) (ext : List Char) :
    skipWs (cs ++ ext) = c :: (rest ++ ext) := by
  rw [skipWs_append, h]
  simp

theorem skipWs_nil_append {cs : List Char} (h : skipWs cs = []) (ext : List Char) :
    skipWs (cs ++ ext) = skipWs ext := by
  rw [skipWs_append, h]
  simp

theorem skipWs_eq_nil_iff (cs : List Char) :
    skipWs cs = [] ↔ ∀ c ∈ cs, isJsonWs c = true := by
  induction cs with
  | nil => simp [skipWs]
  | cons c cs ih =>
    by_cases hc : isJsonWs c = true
    · simp [skipWs, hc, ih]
    · simp [skipWs, hc]

theorem skipWs_ne_nil_of_mem {cs : List Char} {x : Char} (hx : x ∈ cs)
    (hw : isJsonWs x = false) : ¬ (skipWs cs).isEmpty = true := by
  intro h
  rw [List.isEmpty_iff] at h
  rw [(skipWs_eq_nil_iff cs).1 h x hx] at hw
  cases hw

theorem startsList_length {cs pat : List Char} (h : startsList cs pat = true) :
    pat.length ≤ cs.length := by
  induction pat generalizing cs with
  | nil => simp
  | cons p ps ih =>
    cases cs with
    | nil => simp [startsList] at h
    | cons c cs2 =>
      simp only [startsList, Bool.and_eq_true] at h
      simp only [List.length_cons]
      exact Nat.succ_le_succ (ih h.2)

theorem startsList_take {cs pat : List Char} (h : startsList cs pat = true) :
    cs.take pat.length = pat := by
  induction pat generalizing cs with
  | nil => simp
  | cons p ps ih =>
    cases cs with
    | nil => simp [startsList] at h
    | cons c cs2 =>
      simp only [startsList, Bool.and_eq_true, decide_eq_true_eq] at h
      simp [h.1, ih h.2]

theorem startsList_append {cs pat : List Char} (h : startsList cs pat = true)
    (ext : List Char) : startsList (cs ++ ext) pat = true := by
  induction pat generalizing cs with
  | nil => simp [startsList]
  | cons p ps ih =>
    cases cs with
    | nil => simp [startsList] at h
    | cons c cs2 =>
      simp only [startsList, Bool.and_eq_true] at h
      simp only [List.cons_append, startsList, Bool.and_eq_true]
      exact ⟨h.1, ih h.2⟩

theorem mem_drop_of_mem_of_not_mem_take {x : Char} {cs : List Char} {n : Nat}
    (hx : x ∈ cs) (hnt : x ∉ cs.take n) : x ∈ cs.drop n := by
  have hsplit := List.take_append_drop n cs
  rw [← hsplit] at hx
  rcases List.mem_append.1 hx with h1 | h1
  · exact absurd h1 hnt
  · exact h1

theorem takeDigits_split (cs : List Char) :
    cs = (takeDigits cs).1 ++ (takeDigits cs).2 ∧
    ∀ c ∈ (takeDigits cs).1, isDigitCh c = true := by
  induction cs with
  | nil => simp [takeDigits]
  | cons c cs ih =>
    by_cases hc : isDigitCh c = true
    · simp only [takeDigits, hc, if_pos]
      constructor
      · conv_lhs => rw [ih.1]
        rw [List.cons_append]
      · intro x hx
        rcases List.mem_cons.1 hx with h1 | h1
        · exact h1 ▸ hc
        · exact ih.2 x h1
    · simp [takeDigits, hc]

theorem takeDigits_append {cs ds r : List Char} (h : takeDigits cs = (ds, r))
    (hr : r ≠ []) (ext : List Char) : takeDigits (cs ++ ext) = (ds, r ++ ext) := by
  induction cs generalizing ds with
  | nil =>
    simp only [takeDigits] at h
    cases h
    exact absurd rfl hr
  | cons c cs ih =>
    by_cases hc : isDigitCh c = true
    · simp only [takeDigits, hc, if_pos] at h
      cases h
      simp only [List.cons_append, takeDigits, hc, if_pos]
      rw [show cs.append ext = cs ++ ext from rfl, ih rfl]
    · simp only [takeDigits, hc, Bool.false_eq_true, if_neg, not_false_eq_true] at h
      cases h
      simp only [List.cons_append, takeDigits, hc, Bool.false_eq_true, if_neg,
        not_false_eq_true]
      simp

/-- Characters that can occur inside a JSON number literal. -/
def numChar (c : Char) : Bool :=
  isDigitCh c || c = '-' || c = '+' || c = '.' || c = 'e' || c = 'E'

theorem parseSign_split (cs : List Char) :
    cs = (if (parseSign cs).1 then ['-'] else []) ++ (parseSign cs).2 := by
  cases cs with
  | nil => simp [parseSign]
  | cons c r =>
    by_cases hc : c = '-'
    · simp [parseSign, hc]
    · simp [parseSign, hc]

theorem parseIntPart_split {cs : List Char} {i : Nat} {r : List Char}
    (h : parseIntPart cs = some (i, r)) :
    ∃ con, cs = con ++ r ∧ (∀ ch ∈ con, numChar ch = true) ∧ con ≠ [] := by
  cases cs with
  | nil => simp [parseIntPart] at h
  | cons c cs2 =>
    unfold parseIntPart at h
    have h1 : (if c = '0' then some ((0 : Nat), cs2)
        else if isDigitCh c = true then
          some (digitsToNat (c :: (takeDigits cs2).1), (takeDigits cs2).2)
        else none) = some (i, r) := h
    clear h
    rename (if c = '0' then _ else _) = _ => h
    by_cases h0 : c = '0'
    · rw [if_pos h0] at h
      cases h
      refine ⟨[c], rfl, ?_, by simp⟩
      intro ch hch
      simp only [List.mem_singleton] at hch
      subst hch
      simp [numChar, h0, isDigitCh]
    · rw [if_neg h0] at h
      by_cases hd : isDigitCh c = true
      · rw [if_pos hd] at h
        cases h
        refine ⟨c :: (takeDigits cs2).1, ?_, ?_, by simp⟩
        · rw [List.cons_append, ← (takeDigits_split cs2).1]
        · intro ch hch
          rcases List.mem_cons.1 hch with h1 | h1
          · subst h1; simp [numChar, hd]
          · simp [numChar, (takeDigits_split cs2).2 ch h1]
      · rw [if_neg hd] at h
        cases h

theorem parseFracPart_split {cs : List Char} {f k : Nat} {r : List Char}
    (h : parseFracPart cs = some (f, k, r)) :
    ∃ con, cs = con ++ r ∧ ∀ ch ∈ con, numChar ch = true := by
  cases cs with
  | nil =>
    simp only [parseFracPart] at h
    cases h
    exact ⟨[], rfl, by simp⟩
  | cons c cs2 =>
    unfold parseFracPart at h
    have h1 : (if c = '.' then
        (if (takeDigits cs2).1.isEmpty = true then none
         else some (digitsToNat (takeDigits cs2).1,
           ((takeDigits cs2).1.length, (takeDigits cs2).2)))
        else some ((0 : Nat), ((0 : Nat), c :: cs2))) = some (f, k, r) := h
    clear h
    rename (if c = '.' then _ else _) = _ => h
    by_cases hdot : c = '.'
    · rw [if_pos hdot] at h
      by_cases he : (takeDigits cs2).1.isEmpty = true
      · rw [if_pos he] at h; cases h
      · rw [if_neg he] at h
        cases h
        refine ⟨c :: (takeDigits cs2).1, ?_, ?_⟩
        · rw [List.cons_append, ← (takeDigits_split cs2).1]
        · intro ch hch
          rcases List.mem_cons.1 hch with h1 | h1
          · subst h1; simp [numChar, hdot]
          · simp [numChar, (takeDigits_split cs2).2 ch h1]
    · rw [if_neg hdot] at h
      cases h
      exact ⟨[], rfl, by simp⟩

theorem parseExpSign_split (cs : List Char) :
    ∃ con, cs = con ++ (parseExpSign cs).2 ∧ ∀ ch ∈ con, numChar ch = true := by
  cases cs with
  | nil => exact ⟨[], rfl, by simp⟩
  | cons c r =>
    by_cases hm : c = '-'
    · refine ⟨[c], by simp [parseExpSign, hm], ?_⟩
      intro ch hch; simp at hch; subst hch; simp [numChar, hm]
    · by_cases hp : c = '+'
      · refine ⟨[c], by simp [parseExpSign, hm, hp], ?_⟩
        intro ch hch; simp at hch; subst hch; simp [numChar, hp]
      · exact ⟨[], by simp [parseExpSign, hm, hp], by simp⟩

theorem parseExpPart_split {cs : List Char} {e : Int} {r : List Char}
    (h : parseExpPart cs = some (e, r)) :
    ∃ con, cs = con ++ r ∧ ∀ ch ∈ con, numChar ch = true := by
  cases cs with
  | nil =>
    simp only [parseExpPart] at h
    cases h
    exact ⟨[], rfl, by simp⟩
  | cons c cs2 =>
    unfold parseExpPart at h
    have h1 : (if (c = 'e' || c = 'E') = true then
        (if (takeDigits (parseExpSign cs2).2).1.isEmpty = true then none
         else some ((parseExpSign cs2).1 * (digitsToNat (takeDigits (parseExpSign cs2).2).1 : Int),
           (takeDigits (parseExpSign cs2).2).2))
        else some ((0 : Int), c :: cs2)) = some (e, r) := h
    clear h
    rename (if (c = 'e' || c = 'E') = true then _ else _) = _ => h
    by_cases he : (c = 'e' || c = 'E') = true
    · rw [if_pos he] at h
      by_cases hne : (takeDigits (parseExpSign cs2).2).1.isEmpty = true
      · rw [if_pos hne] at h; cases h
      · rw [if_neg hne] at h
        cases h
        obtain ⟨con2, hcat2, hnum2⟩ := parseExpSign_split cs2
        refine ⟨c :: (con2 ++ (takeDigits (parseExpSign cs2).2).1), ?_, ?_⟩
        · rw [List.cons_append, List.append_assoc,
            ← (takeDigits_split (parseExpSign cs2).2).1, ← hcat2]
        · intro ch hch
          rcases List.mem_cons.1 hch with h1 | h1
          · subst h1
            simp only [Bool.or_eq_true, decide_eq_true_eq] at he
            rcases he with h2 | h2 <;> simp [numChar, h2]
          · rcases List.mem_append.1 h1 with h2 | h2
            · exact hnum2 ch h2
            · simp [numChar, (takeDigits_split (parseExpSign cs2).2).2 ch h2]
    · rw [if_neg he] at h
      cases h
      exact ⟨[], rfl, by simp⟩

theorem parseNumber_split {cs : List Char} {q : ℚ} {r : List Char}
    (h : parseNumber cs = some (q, r)) :
    ∃ con, cs = con ++ r ∧ ∀ ch ∈ con, numChar ch = true := by
  unfold parseNumber at h
  cases hint : parseIntPart (parseSign cs).2 with
  | none => rw [hint] at h; cases h
  | some ir =>
    obtain ⟨i, rest1⟩ := ir
    simp only [hint] at h
    cases hfrac : parseFracPart rest1 with
    | none => simp only [hfrac] at h; cases h
    | some fkr =>
      obtain ⟨f, k, rest2⟩ := fkr
      simp only [hfrac] at h
      cases hexp : parseExpPart rest2 with
      | none => simp only [hexp] at h; cases h
      | some er =>
        obtain ⟨e, rest3⟩ := er
        simp only [hexp] at h
        simp only [Option.some.injEq, Prod.mk.injEq] at h
        obtain ⟨-, hr⟩ := h
        subst hr
        obtain ⟨c1, hc1, hn1, -⟩ := parseIntPart_split hint
        obtain ⟨c2, hc2, hn2⟩ := parseFracPart_split hfrac
        obtain ⟨c3, hc3, hn3⟩ := parseExpPart_split hexp
        refine ⟨(if (parseSign cs).1 then ['-'] else []) ++ c1 ++ c2 ++ c3, ?_, ?_⟩
        · rw [List.append_assoc, List.append_assoc, List.append_assoc,
            ← hc3, ← hc2, ← hc1]
          exact parseSign_split cs
        · intro ch hch
          rcases List.mem_append.1 hch with h1 | h1
          · rcases List.mem_append.1 h1 with h2 | h2
            · rcases List.mem_append.1 h2 with h3 | h3
              · by_cases hs : (parseSign cs).1 <;> simp [hs] at h3
                subst h3
                simp [numChar]
              · exact hn1 ch h3
            · exact hn2 ch h2
          · exact hn3 ch h1

theorem parseSign_append {cs : List Char} (hne : cs ≠ []) (ext : List Char) :
    parseSign (cs ++ ext) = ((parseSign cs).1, (parseSign cs).2 ++ ext) := by
  cases cs with
  | nil => exact absurd rfl hne
  | cons c r =>
    by_cases hc : c = '-'
    · simp [parseSign, hc]
    · simp [parseSign, hc]

theorem parseIntPart_append {cs : List Char} {i : Nat} {r : List Char}
    (h : parseIntPart cs = some (i, r)) (hr : r ≠ []) (ext : List Char) :
    parseIntPart (cs ++ ext) = some (i, r ++ ext) := by
  cases cs with
  | nil => simp [parseIntPart] at h
  | cons c cs2 =>
    unfold parseIntPart at h ⊢
    have h1 : (if c = '0' then some ((0 : Nat), cs2)
        else if isDigitCh c = true then
          some (digitsToNat (c :: (takeDigits cs2).1), (takeDigits cs2).2)
        else none) = some (i, r) := h
    clear h
    rename (if c = '0' then _ else _) = _ => h
    show (if c = '0' then some ((0 : Nat), cs2 ++ ext)
        else if isDigitCh c = true then
          some (digitsToNat (c :: (takeDigits (cs2 ++ ext)).1), (takeDigits (cs2 ++ ext)).2)
        else none) = some (i, r ++ ext)
    by_cases h0 : c = '0'
    · rw [if_pos h0] at h ⊢
      cases h
      rfl
    · rw [if_neg h0] at h ⊢
      by_cases hd : isDigitCh c = true
      · rw [if_pos hd] at h ⊢
        cases h
        rw [takeDigits_append rfl hr ext]
      · rw [if_neg hd] at h
        cases h

theorem parseFracPart_append {cs : List Char} {f k : Nat} {r : List Char}
    (h : parseFracPart cs = some (f, k, r)) (hr : r ≠ []) (ext : List Char) :
    parseFracPart (cs ++ ext) = some (f, k, r ++ ext) := by
  cases cs with
  | nil =>
    simp only [parseFracPart] at h
    cases h
    exact absurd rfl hr
  | cons c cs2 =>
    unfold parseFracPart at h ⊢
    have h1 : (if c = '.' then
        (if (takeDigits cs2).1.isEmpty = true then none
         else some (digitsToNat (takeDigits cs2).1,
           ((takeDigits cs2).1.length, (takeDigits cs2).2)))
        else some ((0 : Nat), ((0 : Nat), c :: cs2))) = some (f, k, r) := h
    clear h
    rename (if c = '.' then _ else _) = _ => h
    show (if c = '.' then
        (if (takeDigits (cs2 ++ ext)).1.isEmpty = true then none
         else some (digitsToNat (takeDigits (cs2 ++ ext)).1,
           ((takeDigits (cs2 ++ ext)).1.length, (takeDigits (cs2 ++ ext)).2)))
        else some ((0 : Nat), ((0 : Nat), c :: (cs2 ++ ext)))) = some (f, k, r ++ ext)
    by_cases hdot : c = '.'
    · rw [if_pos hdot] at h ⊢
      by_cases he : (takeDigits cs2).1.isEmpty = true
      · rw [if_pos he] at h; cases h
      · rw [if_neg he] at h
        cases h
        rw [takeDigits_append rfl hr ext]
        rw [if_neg he]
    · rw [if_neg hdot] at h ⊢
      cases h
      rfl

theorem parseExpSign_append {cs : List Char} (hne : cs ≠ []) (ext : List Char) :
    parseExpSign (cs ++ ext) = ((parseExpSign cs).1, (parseExpSign cs).2 ++ ext) := by
  cases cs with
  | nil => exact absurd rfl hne
  | cons c r =>
    by_cases hm : c = '-'
    · simp [parseExpSign, hm]
    · by_cases hp : c = '+'
      · simp [parseExpSign, hm, hp]
      · simp [parseExpSign, hm, hp]

theorem parseExpPart_append {cs : List Char} {e : Int} {r : List Char}
    (h : parseExpPart cs = some (e, r)) (hr : r ≠ []) (ext : List Char) :
    parseExpPart (cs ++ ext) = some (e, r ++ ext) := by
  cases cs with
  | nil =>
    simp only [parseExpPart] at h
    cases h
    exact absurd rfl hr
  | cons c cs2 =>
    unfold parseExpPart at h ⊢
    have h1 : (if (c = 'e' || c = 'E') = true then
        (if (takeDigits (parseExpSign cs2).2).1.isEmpty = true then none
         else some ((parseExpSign cs2).1 * (digitsToNat (takeDigits (parseExpSign cs2).2).1 : Int),
           (takeDigits (parseExpSign cs2).2).2))
        else some ((0 : Int), c :: cs2)) = some (e, r) := h
    clear h
    rename (if (c = 'e' || c = 'E') = true then _ else _) = _ => h
    show (if (c = 'e' || c = 'E') = true then
        (if (takeDigits (parseExpSign (cs2 ++ ext)).2).1.isEmpty = true then none
         else some ((parseExpSign (cs2 ++ ext)).1 *
             (digitsToNat (takeDigits (parseExpSign (cs2 ++ ext)).2).1 : Int),
           (takeDigits (parseExpSign (cs2 ++ ext)).2).2))
        else some ((0 : Int), c :: (cs2 ++ ext))) = some (e, r ++ ext)
    by_cases he : (c = 'e' || c = 'E') = true
    · rw [if_pos he] at h ⊢
      by_cases hne2 : (takeDigits (parseExpSign cs2).2).1.isEmpty = true
      · rw [if_pos hne2] at h; cases h
      · rw [if_neg hne2] at h
        cases h
        have hcs2 : cs2 ≠ [] := by
          intro hnil
          subst hnil
          simp [parseExpSign, takeDigits] at hne2
        rw [parseExpSign_append hcs2 ext]
        rw [takeDigits_append rfl hr ext]
        rw [if_neg hne2]
    · rw [if_neg he] at h ⊢
      cases h
      rfl

theorem parseNumber_append {cs : List Char} {q : ℚ} {r : List Char}
    (h : parseNumber cs = some (q, r)) (hr : r ≠ []) (ext : List Char) :
    parseNumber (cs ++ ext) = some (q, r ++ ext) := by
  have hcs : cs ≠ [] := by
    intro hnil
    subst hnil
    simp [parseNumber, parseSign, parseIntPart] at h
  unfold parseNumber at h ⊢
  cases hint : parseIntPart (parseSign cs).2 with
  | none => rw [hint] at h; cases h
  | some ir =>
    obtain ⟨i, rest1⟩ := ir
    simp only [hint] at h
    cases hfrac : parseFracPart rest1 with
    | none => simp only [hfrac] at h; cases h
    | some fkr =>
      obtain ⟨f, k, rest2⟩ := fkr
      simp only [hfrac] at h
      cases hexp : parseExpPart rest2 with
      | none => simp only [hexp] at h; cases h
      | some er =>
        obtain ⟨e, rest3⟩ := er
        simp only [hexp] at h
        simp only [Option.some.injEq, Prod.mk.injEq] at h
        obtain ⟨hq, hr3⟩ := h
        subst hr3
        obtain ⟨c3, hc3, -⟩ := parseExpPart_split hexp
        have hrest2 : rest2 ≠ [] := by
          intro hnil
          rw [hnil] at hc3
          exact hr (List.append_eq_nil.1 hc3.symm).2
        obtain ⟨c2, hc2, -⟩ := parseFracPart_split hfrac
        have hrest1 : rest1 ≠ [] := by
          intro hnil
          rw [hnil] at hc2
          exact hrest2 (List.append_eq_nil.1 hc2.symm).2
        rw [parseSign_append hcs ext]
        simp only [parseIntPart_append hint hrest1 ext]
        simp only [parseFracPart_append hfrac hrest2 ext]
        simp only [parseExpPart_append hexp hr ext]
        rw [← hq]

theorem parseStringBody_append :
    ∀ (f : Nat) {cs acc : List Char} {st : String} {r : List Char} {f' : Nat}
      (ext : List Char),
    parseStringBody f cs acc = some (st, r) → f ≤ f' →
    parseStringBody f' (cs ++ ext) acc = some (st, r ++ ext) := by
  intro f
  induction f with
  | zero => intro cs acc st r f' ext h _; simp [parseStringBody] at h
  | succ fuel ih =>
    intro cs acc st r f' ext h hf
    cases f' with
    | zero => omega
    | succ fuel' =>
    have hf2 : fuel ≤ fuel' := by omega
    cases cs with
    | nil => simp [parseStringBody] at h
    | cons c rest =>
      rw [List.cons_append]
      simp only [parseStringBody] at h ⊢
      by_cases hq : c = '\"'
      · rw [if_pos hq] at h ⊢
        simp only [Option.some.injEq, Prod.mk.injEq] at h
        obtain ⟨h1, h2⟩ := h
        subst h1
        subst h2
        rfl
      · rw [if_neg hq] at h ⊢
        by_cases hbs : c = '\\'
        · rw [if_pos hbs] at h ⊢
          split at h
          · exact Option.noConfusion h
          · rename_i e r2
            rw [List.cons_append]
            show (if e = '\"' then parseStringBody fuel' (r2 ++ ext) ('\"' :: acc)
                else if e = '\\' then parseStringBody fuel' (r2 ++ ext) ('\\' :: acc)
                else if e = '/' then parseStringBody fuel' (r2 ++ ext) ('/' :: acc)
                else if e = 'b' then parseStringBody fuel' (r2 ++ ext) (Char.ofNat 8 :: acc)
                else if e = 'f' then parseStringBody fuel' (r2 ++ ext) (Char.ofNat 12 :: acc)
                else if e = 'n' then parseStringBody fuel' (r2 ++ ext) (Char.ofNat 10 :: acc)
                else if e = 'r' then parseStringBody fuel' (r2 ++ ext) (Char.ofNat 13 :: acc)
                else if e = 't' then parseStringBody fuel' (r2 ++ ext) (Char.ofNat 9 :: acc)
                else if e = 'u' then
                  (match r2 ++ ext with
                  | u1 :: u2 :: u3 :: u4 :: r3 =>
                    (match hexVal u1, hexVal u2, hexVal u3, hexVal u4 with
                    | some a, some b, some c3, some d =>
                      parseStringBody fuel' r3
                        (Char.ofNat (((a * 16 + b) * 16 + c3) * 16 + d) :: acc)
                    | _, _, _, _ => none)
                  | _ => none)
                else none) = some (st, r ++ ext)
            by_cases he1 : e = '\"'
            · rw [if_pos he1] at h ⊢; exact ih ext h hf2
            · rw [if_neg he1] at h ⊢
              by_cases he2 : e = '\\'
              · rw [if_pos he2] at h ⊢; exact ih ext h hf2
              · rw [if_neg he2] at h ⊢
                by_cases he3 : e = '/'
                · rw [if_pos he3] at h ⊢; exact ih ext h hf2
                · rw [if_neg he3] at h ⊢
                  by_cases he4 : e = 'b'
                  · rw [if_pos he4] at h ⊢; exact ih ext h hf2
                  · rw [if_neg he4] at h ⊢
                    by_cases he5 : e = 'f'
                    · rw [if_pos he5] at h ⊢; exact ih ext h hf2
                    · rw [if_neg he5] at h ⊢
                      by_cases he6 : e = 'n'
                      · rw [if_pos he6] at h ⊢; exact ih ext h hf2
                      · rw [if_neg he6] at h ⊢
                        by_cases he7 : e = 'r'
                        · rw [if_pos he7] at h ⊢; exact ih ext h hf2
                        · rw [if_neg he7] at h ⊢
                          by_cases he8 : e = 't'
                          · rw [if_pos he8] at h ⊢; exact ih ext h hf2
                          · rw [if_neg he8] at h ⊢
                            by_cases he9 : e = 'u'
                            · rw [if_pos he9] at h ⊢
                              split at h
                              · rename_i u1 u2 u3 u4 r3
                                simp only [List.cons_append]
                                split at h
                                · rename_i a b c3 d hx1 hx2 hx3 hx4
                                  exact ih ext h hf2
                                · exact Option.noConfusion h
                              · exact Option.noConfusion h
                            · rw [if_neg he9] at h
                              exact Option.noConfusion h
        · rw [if_neg hbs] at h ⊢
          by_cases hctl : c.toNat < 32
          · rw [if_pos hctl] at h; cases h
          · rw [if_neg hctl] at h ⊢
            exact ih ext h hf2

/-! ## C4: extraction of a fenced JSON object -/

theorem dropWhile_ws_of_head {cs : List Char} {c : Char}
    (h : cs.head? = some c) (hw : isJsWs c = false) :
    cs.dropWhile (fun x => isJsWs x) = cs := by
  cases cs with
  | nil => cases h
  | cons b t =>
    have hb : b = c := by simpa using h
    subst hb
    simp [List.dropWhile_cons, hw]

theorem trimChars_of_ends {cs : List Char} {c1 c2 : Char}
    (h1 : cs.head? = some c1) (hw1 : isJsWs c1 = false)
    (h2 : cs.getLast? = some c2) (hw2 : isJsWs c2 = false) :
    trimChars cs = cs := by
  have hrev : cs.reverse.head? = some c2 := by rw [List.head?_reverse]; exact h2
  simp only [trimChars, dropLeadWs]
  rw [dropWhile_ws_of_head h1 hw1, dropWhile_ws_of_head hrev hw2, List.reverse_reverse]

theorem dropWhile_ws_cons_ws {c : Char} {cs : List Char} (h : isJsWs c = true) :
    List.dropWhile (fun x => isJsWs x) (c :: cs)
    = List.dropWhile (fun x => isJsWs x) cs := by
  simp [List.dropWhile_cons, h]

theorem trim_wrap {cs : List Char} {c1 c2 : Char}
    (h1 : cs.head? = some c1) (hw1 : isJsWs c1 = false)
    (h2 : cs.getLast? = some c2) (hw2 : isJsWs c2 = false) :
    trimChars ('\n' :: cs ++ ['\n']) = cs := by
  have hnw : isJsWs '\n' = true := by decide
  have hhead : (cs ++ ['\n']).head? = some c1 := by
    cases cs with
    | nil => cases h1
    | cons b t => simpa using h1
  have hrev : cs.reverse.head? = some c2 := by rw [List.head?_reverse]; exact h2
  simp only [trimChars, dropLeadWs]
  rw [List.cons_append, dropWhile_ws_cons_ws hnw, dropWhile_ws_of_head hhead hw1, List.reverse_append,
    List.reverse_singleton, List.singleton_append, dropWhile_ws_cons_ws hnw,
    dropWhile_ws_of_head hrev hw2, List.reverse_reverse]

theorem dropLast_three (xs : List Char) (a b c : Char) :
    (((xs ++ [a, b, c]).dropLast).dropLast).dropLast = xs := by
  rw [show xs ++ [a, b, c] = (xs ++ [a, b]) ++ [c] by simp, List.dropLast_concat,
    show xs ++ [a, b] = (xs ++ [a]) ++ [b] by simp, List.dropLast_concat,
    List.dropLast_concat]

theorem cleanChars_fence {s : List Char}
    (h1 : s.head? = some lbrace) (h2 : s.getLast? = some rbrace) :
    cleanChars (btick :: btick :: btick :: 'j' :: 's' :: 'o' :: 'n' :: '\n' ::
      (s ++ ('\n' :: btick :: btick :: btick :: []))) = s := by
  have hfull : btick :: btick :: btick :: 'j' :: 's' :: 'o' :: 'n' :: '\n' ::
      (s ++ ('\n' :: btick :: btick :: btick :: []))
      = (btick :: btick :: btick :: 'j' :: 's' :: 'o' :: 'n' :: '\n' ::
        (s ++ ['\n', btick, btick])) ++ [btick] := by simp
  have hlastfull : (btick :: btick :: btick :: 'j' :: 's' :: 'o' :: 'n' :: '\n' ::
      (s ++ ('\n' :: btick :: btick :: btick :: []))).getLast? = some btick := by
    rw [hfull]; exact List.getLast?_concat _
  have hheadfull : (btick :: btick :: btick :: 'j' :: 's' :: 'o' :: 'n' :: '\n' ::
      (s ++ ('\n' :: btick :: btick :: btick :: []))).head? = some btick := rfl
  rw [cleanChars]
  rw [trimChars_of_ends hheadfull (by decide) hlastfull (by decide)]
  rw [stripFencesChars]
  have h3 : ("```" : String).data = [btick, btick, btick] := rfl
  rw [h3]
  have hc1 : startsList (btick :: btick :: btick :: 'j' :: 's' :: 'o' :: 'n' :: '\n' ::
      (s ++ ('\n' :: btick :: btick :: btick :: []))) [btick, btick, btick] = true := by
    simp [startsList]
  have hc2 : endsList (btick :: btick :: btick :: 'j' :: 's' :: 'o' :: 'n' :: '\n' ::
      (s ++ ('\n' :: btick :: btick :: btick :: []))) [btick, btick, btick] = true := by
    simp only [endsList, List.reverse_cons, List.reverse_append]
    simp [startsList]
  have hc3 : decide (6 ≤ (btick :: btick :: btick :: 'j' :: 's' :: 'o' :: 'n' :: '\n' ::
      (s ++ ('\n' :: btick :: btick :: btick :: []))).length) = true := by
    rw [decide_eq_true_eq]
    simp [List.length_append]
  rw [if_pos (by rw [hc1, hc2, hc3]; rfl)]
  rw [show List.drop 3 (btick :: btick :: btick :: 'j' :: 's' :: 'o' :: 'n' :: '\n' ::
      (s ++ ('\n' :: btick :: btick :: btick :: [])))
      = 'j' :: 's' :: 'o' :: 'n' :: '\n' :: (s ++ ('\n' :: btick :: btick :: btick :: []))
      from rfl]
  rw [show 'j' :: 's' :: 'o' :: 'n' :: '\n' :: (s ++ ('\n' :: btick :: btick :: btick :: []))
      = ('j' :: 's' :: 'o' :: 'n' :: '\n' :: (s ++ ['\n'])) ++ [btick, btick, btick] by simp]
  rw [dropLast_three]
  rw [dropTag]
  have hjson : ("json" : String).data = ['j', 's', 'o', 'n'] := rfl
  rw [hjson]
  have hstart : startsList ('j' :: 's' :: 'o' :: 'n' :: '\n' :: (s ++ ['\n']))
      ['j', 's', 'o', 'n'] = true := by simp [startsList]
  rw [if_pos hstart]
  rw [show List.drop 4 ('j' :: 's' :: 'o' :: 'n' :: '\n' :: (s ++ ['\n']))
      = '\n' :: (s ++ ['\n']) from rfl]
  exact trim_wrap h1 (by decide) h2 (by decide)

/-- C4: the markdown-fence half of the claim holds: wrapping a JSON object
text in a ```json fence extracts exactly the parsed object.  The
arbitrary-prose half is refuted by `C4_counterexample`. -/
theorem C4_embedded_object (s : String) (fs : List (String × JSVal))
    (h1 : s.data.head? = some lbrace)
    (h2 : s.data.getLast? = some rbrace)
    (hp : jsonParseChars s.data = some (JSVal.obj fs)) :
    extractJSON ("```json\n" ++ s ++ "\n```") = some (JSVal.obj fs) := by
  have hA : ("```json\n" : String).data
      = btick :: btick :: btick :: 'j' :: 's' :: 'o' :: 'n' :: '\n' :: [] := rfl
  have hB : ("\n```" : String).data = '\n' :: btick :: btick :: btick :: [] := rfl
  have hdata : ("```json\n" ++ s ++ "\n```").data
      = btick :: btick :: btick :: 'j' :: 's' :: 'o' :: 'n' :: '\n' ::
        (s.data ++ ('\n' :: btick :: btick :: btick :: [])) := by
    rw [String.data_append, String.data_append, hA, hB]
    simp
  have hne : ("```json\n" ++ s ++ "\n```") ≠ "" := by
    intro h
    have hd := congrArg String.data h
    rw [hdata] at hd
    simp at hd
  rw [extractJSON, if_neg hne, extractJSONChars]
  rw [hdata, cleanChars_fence h1 h2, hp]
  rfl

theorem C4_counterexample :
    extractJSON "\x7b \x7b\"a\":1\x7d" = none ∧
    jsonParse "\x7b\"a\":1\x7d" = some (JSVal.obj [("a", JSVal.num 1)]) :=
  ⟨by with_unfolding_all rfl, by with_unfolding_all rfl⟩

theorem C4_witness :
    extractJSON "```json\n\x7b\"a\":1\x7d\n```" = some (JSVal.obj [("a", JSVal.num 1)]) :=
  C4_embedded_object "\x7b\"a\":1\x7d" [("a", JSVal.num 1)]
    (by with_unfolding_all rfl) (by with_unfolding_all rfl) (by with_unfolding_all rfl)

end ResearchAgent
